import Mathlib

/-!
Shallow embedding (in Lean 4) of the `interests` repository:
`src/streaming_histogram/histogram.py` (classes `HistogramBucket` and
`StreamingHistogram`) and `src/token_generator/token_gen.py`
(`token_generator`).

Modelling conventions:
* Python `float` values held in buckets are modelled as exact rationals `ℚ`;
  the fields `_min` / `_max` and the `bucket_ranges` array, which use the
  IEEE infinities `float('-inf')` / `float('inf')`, are modelled in
  `QI := WithBot (WithTop ℚ)` (so `⊥` is `-inf` and the top coercion is
  `+inf`).  Every concrete computation appearing in the claims is exact in
  binary floating point, so the rational model is faithful on them.
* Python `int` is modelled as `ℤ`.
* Fallible code is modelled in `Except PyErr`; `PyErr` distinguishes the
  exception classes the source can raise (`ValueError`,
  `ZeroDivisionError`, `IndexError`).
* Mutation of `self` is modelled by returning the updated record
  (value-level semantics).  A second, heap-explicit semantics (a store of
  bucket objects addressed by ids) is given further below for the claims
  about aliasing of bucket objects across histograms.
-/

/-- Exception classes that the Python source can raise. -/
inductive PyErr : Type
  | valueError
  | zeroDivisionError
  | indexError
deriving DecidableEq, Repr

/-- Python floats together with the two infinities: `⊥` models
`float('-inf')`, `((⊤ : WithTop ℚ) : QI)` models `float('inf')`, and a
finite float `q` is `((q : WithTop ℚ) : QI)`. -/
abbrev QI := WithBot (WithTop ℚ)

/-- Finite float as an element of `QI`. -/
def QI.fin (q : ℚ) : QI := ((q : WithTop ℚ) : QI)

/-- `float('inf')` as an element of `QI`. -/
def QI.pinf : QI := ((⊤ : WithTop ℚ) : QI)

/-- Python list read `l[i]` for `0 ≤ i`: raises `IndexError` out of range. -/
def pyGet {α : Type} (l : List α) (i : ℕ) : Except PyErr α :=
  if h : i < l.length then .ok (l.get ⟨i, h⟩) else .error .indexError

/-- The `while lo < hi` loop of Python's `bisect.bisect_left(a, x)`.
The `fuel` argument makes the recursion structural (so that the kernel can
evaluate it); each iteration shrinks `hi - lo` by at least one, so any
`fuel ≥ hi - lo` gives exactly the Python loop, and `fuel = 0` can only be
reached once `lo ≥ hi`, where the loop exits anyway.  The `getD` default
is never read because `mid < hi ≤ a.length` at every probe. -/
def bisectLeftLoop {α : Type} [LinearOrder α] (a : List α) (x : α) :
    ℕ → ℕ → ℕ → ℕ
  | 0, lo, _ => lo
  | fuel + 1, lo, hi =>
    if lo < hi then
      if a.getD ((lo + hi) / 2) x < x then
        bisectLeftLoop a x fuel ((lo + hi) / 2 + 1) hi
      else bisectLeftLoop a x fuel lo ((lo + hi) / 2)
    else lo

/-- Python's `bisect.bisect_left` on a whole list. -/
def bisect_left {α : Type} [LinearOrder α] (a : List α) (x : α) : ℕ :=
  bisectLeftLoop a x a.length 0 a.length

/-- The `while lo < hi` loop of Python's `bisect.bisect_right(a, x)`
(fuelled like `bisectLeftLoop`). -/
def bisectRightLoop {α : Type} [LinearOrder α] (a : List α) (x : α) :
    ℕ → ℕ → ℕ → ℕ
  | 0, lo, _ => lo
  | fuel + 1, lo, hi =>
    if lo < hi then
      if x < a.getD ((lo + hi) / 2) x then
        bisectRightLoop a x fuel lo ((lo + hi) / 2)
      else bisectRightLoop a x fuel ((lo + hi) / 2 + 1) hi
    else lo

/-- Python's `bisect.bisect_right` on a whole list. -/
def bisect_right {α : Type} [LinearOrder α] (a : List α) (x : α) : ℕ :=
  bisectRightLoop a x a.length 0 a.length

/-- `class HistogramBucket`: a (centroid, count) pair. -/
structure HistogramBucket : Type where
  centroid : ℚ
  count : ℤ
deriving DecidableEq, Repr

/-- `HistogramBucket.get_area`: `centroid * count`. -/
def HistogramBucket.get_area (self : HistogramBucket) : ℚ :=
  self.centroid * (self.count : ℚ)

/-- `HistogramBucket.combine`: fold `bucket` into `self` (the in-place
mutation of `self` is modelled by returning the new value).  The Python
division raises `ZeroDivisionError` exactly when `new_count == 0`. -/
def HistogramBucket.combine (self bucket : HistogramBucket) :
    Except PyErr HistogramBucket :=
  let new_count := self.count + bucket.count
  if new_count = 0 then .error .zeroDivisionError
  else .ok ⟨(self.get_area + bucket.get_area) / (new_count : ℚ), new_count⟩

/-- `class StreamingHistogram`: field names follow the source
(`_centroids` ↦ `centroids`, `_min` ↦ `min`, `_max` ↦ `max`,
`_count` ↦ `count`). -/
structure StreamingHistogram : Type where
  max_buckets : ℤ
  buckets : List HistogramBucket
  centroids : List ℚ
  min : QI
  max : QI
  count : ℤ
deriving DecidableEq, Repr

namespace StreamingHistogram

/-- `StreamingHistogram.__init__`: raises `ValueError` on a non-positive
bucket cap, otherwise starts empty with `_min = inf`, `_max = -inf`. -/
def init (max_buckets : ℤ) : Except PyErr StreamingHistogram :=
  if max_buckets ≤ 0 then .error .valueError
  else .ok ⟨max_buckets, [], [], QI.pinf, ⊥, 0⟩

/-- The scan of `StreamingHistogram.combine` that chooses `index_to_remove`.
`min_diff` is the initial `min_centroid_diff` (the gap of the first pair);
the source never updates it inside the loop, so the comparison at index `i`
is always against the first pair's gap.  `fuel` makes the recursion
structural; the caller passes `fuel = bs.length ≥ bs.length - i`, so the
loop runs exactly `for index in range(i, len(bs))`. -/
def selectLoop (bs : List HistogramBucket) (min_diff : ℚ) :
    ℕ → ℕ → ℕ → ℕ
  | 0, _, best => best
  | fuel + 1, i, best =>
    if i < bs.length then
      if (bs.getD i ⟨0, 0⟩).centroid - (bs.getD (i - 1) ⟨0, 0⟩).centroid
          < min_diff then
        selectLoop bs min_diff fuel (i + 1) i
      else selectLoop bs min_diff fuel (i + 1) best
    else best

/-- `StreamingHistogram.combine` (bucket reduction): no-op on a single
bucket; otherwise pick `index_to_remove` by the scan above, merge
`buckets[index_to_remove - 1]` with `buckets[index_to_remove]` via
`HistogramBucket.combine`, pop the right bucket from both lists and
refresh `_centroids[index_to_remove - 1]`.  (The `List.set` calls are in
range whenever the corresponding `pyGet` succeeded.) -/
def combine (self : StreamingHistogram) : Except PyErr StreamingHistogram :=
  if self.buckets.length = 1 then .ok self
  else do
    let bucket_1 ← pyGet self.buckets 0
    let bucket_2 ← pyGet self.buckets 1
    let min_centroid_diff := bucket_2.centroid - bucket_1.centroid
    let index_to_remove :=
      selectLoop self.buckets min_centroid_diff self.buckets.length 2 1
    let left ← pyGet self.buckets (index_to_remove - 1)
    let right ← pyGet self.buckets index_to_remove
    let merged ← left.combine right
    .ok { self with
          buckets := (self.buckets.set (index_to_remove - 1) merged).eraseIdx
            index_to_remove,
          centroids := (self.centroids.eraseIdx index_to_remove).set
            (index_to_remove - 1) merged.centroid }

/-- `StreamingHistogram.push_bucket`: add the count, insert bucket and
centroid at the `bisect_left` position, and reduce once if the capacity is
now exceeded.  (`bisect_left` always returns a position `≤ length`, so
`insertIdx` matches Python's `list.insert`.) -/
def push_bucket (self : StreamingHistogram) (bucket : HistogramBucket) :
    Except PyErr StreamingHistogram :=
  let s1 := { self with count := self.count + bucket.count }
  let pos := bisect_left s1.centroids bucket.centroid
  let s2 := { s1 with centroids := s1.centroids.insertIdx pos bucket.centroid,
                      buckets := s1.buckets.insertIdx pos bucket }
  if (s2.buckets.length : ℤ) > s2.max_buckets then s2.combine else .ok s2

/-- `StreamingHistogram.push_value`: if an existing bucket's centroid
equals `value` exactly, bump its count, else push a fresh `(value, 1)`
bucket; finally update `_min` / `_max`. -/
def push_value (self : StreamingHistogram) (value : ℚ) :
    Except PyErr StreamingHistogram := do
  let pos := bisect_left self.centroids value
  let s1 ←
    if pos < self.buckets.length then do
      let c ← pyGet self.centroids pos
      if c = value then do
        let b ← pyGet self.buckets pos
        Except.ok { self with
          buckets := self.buckets.set pos { b with count := b.count + 1 },
          count := self.count + 1 }
      else self.push_bucket ⟨value, 1⟩
    else self.push_bucket ⟨value, 1⟩
  .ok { s1 with min := if QI.fin value < s1.min then QI.fin value else s1.min,
                max := if s1.max < QI.fin value then QI.fin value else s1.max }

/-- `StreamingHistogram.push_list`: sequential `push_value`. -/
def push_list (self : StreamingHistogram) (values : List ℚ) :
    Except PyErr StreamingHistogram :=
  values.foldlM push_value self

/-- `StreamingHistogram.merge` (value-level): for each bucket of
`histogram` in order, `push_bucket` it and then reduce once
unconditionally.  Note the source pushes the bucket *objects* of
`histogram` without copying; the heap-explicit semantics below models that
aliasing, which this value-level function abstracts away. -/
def merge (self histogram : StreamingHistogram) :
    Except PyErr StreamingHistogram :=
  histogram.buckets.foldlM (fun s b => do (← s.push_bucket b).combine) self

/-- `StreamingHistogram.is_sorted`: adjacent centroids compared with
non-strict `<=`. -/
def is_sorted (self : StreamingHistogram) : Bool :=
  (List.range (self.buckets.length - 1)).all fun i =>
    (self.buckets.getD i ⟨0, 0⟩).centroid ≤
      (self.buckets.getD (i + 1) ⟨0, 0⟩).centroid

/-- `StreamingHistogram.get_total_count` / `StreamingHistogram.count`:
both return `self._count`. -/
def get_total_count (self : StreamingHistogram) : ℤ := self.count

/-- `StreamingHistogram.clone`: a fresh histogram whose cap is the
*current number of buckets* (`StreamingHistogram(len(self.buckets))`,
which raises `ValueError` when there are zero buckets), then `push_bucket`
each bucket of `self`. -/
def clone (self : StreamingHistogram) : Except PyErr StreamingHistogram := do
  let c ← init (self.buckets.length : ℤ)
  self.buckets.foldlM (fun s b => s.push_bucket b) c

/-- Loop body of `StreamingHistogram.reshape` over the buckets of `self`.
`new0` is the accumulated `new_buckets`; `ranges` is `bucket_ranges`.
`bucket_index` is `bisect_right(bucket_ranges, centroid) - 1`; since
`bucket_ranges` starts with `-inf`, `bisect_right` is always ≥ 1, so the
natural subtraction is exact.  `new_buckets[-1]` is `pyGet` at
`length - 1` (on an empty list both raise `IndexError`, matching Python,
though that branch is then unreachable because `bucket_index = 0` is
tested first). -/
def reshapeLoop (ranges : List QI) :
    List HistogramBucket → List HistogramBucket →
      Except PyErr (List HistogramBucket)
  | new0, [] => .ok new0
  | new0, b :: rest => do
    let bucket_index := bisect_right ranges (QI.fin b.centroid) - 1
    let new1 ←
      if bucket_index = 0 then do
        let t ← pyGet new0 0
        Except.ok (new0.set 0 { t with count := t.count + b.count })
      else if bucket_index = new0.length then do
        let t ← pyGet new0 (new0.length - 1)
        Except.ok (new0.set (new0.length - 1)
          { t with count := t.count + b.count })
      else do
        let prev ← pyGet new0 (bucket_index - 1)
        let next ← pyGet new0 bucket_index
        let diff_prev := |b.centroid - prev.centroid|
        let diff_next := |next.centroid - b.centroid|
        if diff_prev < diff_next then
          Except.ok (new0.set (bucket_index - 1)
            { prev with count := prev.count + b.count })
        else
          Except.ok (new0.set bucket_index
            { next with count := next.count + b.count })
    reshapeLoop ranges new1 rest

/-- `StreamingHistogram.reshape`: rebin `self` onto the centroids of
`input_histogram`.  `new_buckets` are fresh `(centroid, 0)` buckets,
`bucket_ranges = [-inf] ++ centroids ++ [inf]`; after the loop only
`buckets` and `_centroids` of `self` are reassigned. -/
def reshape (self input_histogram : StreamingHistogram) :
    Except PyErr StreamingHistogram := do
  let new_buckets := input_histogram.buckets.map fun bucket =>
    (⟨bucket.centroid, 0⟩ : HistogramBucket)
  let bucket_ranges : List QI :=
    ⊥ :: (input_histogram.buckets.map fun bucket => QI.fin bucket.centroid)
      ++ [QI.pinf]
  let final ← reshapeLoop bucket_ranges new_buckets self.buckets
  .ok { self with buckets := final, centroids := final.map (·.centroid) }

/-- Loop of `StreamingHistogram.centroids_matching`: walks `self`'s
buckets with an index into `input_histogram`'s bucket list (an out-of-range
read raises, as in Python). -/
def cmLoop (input : List HistogramBucket) :
    List HistogramBucket → ℕ → Except PyErr Bool
  | [], _ => .ok true
  | bucket :: rest, index => do
    let other ← pyGet input index
    if bucket.centroid ≠ other.centroid then .ok false
    else cmLoop input rest (index + 1)

/-- `StreamingHistogram.centroids_matching`. -/
def centroids_matching (self input_histogram : StreamingHistogram) :
    Except PyErr Bool :=
  cmLoop input_histogram.buckets self.buckets 0

/-- Loop of `StreamingHistogram.compare_using_psi` over the zipped bucket
pairs.  `np.log` is modelled by the abstract function parameter `log`
(its values never matter to the claims below, only the control flow).
The Python float divisions `count / float(total)` raise
`ZeroDivisionError` exactly when the total is zero. -/
def psiLoop (log : ℚ → ℚ) (tr tc : ℤ) :
    List (HistogramBucket × HistogramBucket) → ℚ → Except PyErr ℚ
  | [], acc => .ok acc
  | (rb, cb) :: rest, acc => do
    let reference_pct ←
      if (tr : ℚ) = 0 then Except.error PyErr.zeroDivisionError
      else Except.ok ((rb.count : ℚ) / (tr : ℚ))
    let compare_pct ←
      if (tc : ℚ) = 0 then Except.error PyErr.zeroDivisionError
      else Except.ok ((cb.count : ℚ) / (tc : ℚ))
    if reference_pct = 0 ∨ compare_pct = 0 then psiLoop log tr tc rest acc
    else
      psiLoop log tr tc rest
        (acc + (compare_pct - reference_pct) * log (compare_pct / reference_pct))

/-- `StreamingHistogram.compare_using_psi`: decide whether a reshape is
required (length mismatch, else centroid mismatch), in that case clone
`input_histogram` and reshape the clone onto `self`, then accumulate the
PSI sum over the zipped bucket pairs. -/
def compare_using_psi (log : ℚ → ℚ) (self input_histogram : StreamingHistogram) :
    Except PyErr ℚ := do
  let reshape_required ←
    if self.buckets.length ≠ input_histogram.buckets.length then
      Except.ok true
    else do
      let m ← self.centroids_matching input_histogram
      Except.ok (!m)
  let compare ←
    if reshape_required then do
      let c ← input_histogram.clone
      c.reshape self
    else Except.ok input_histogram
  psiLoop log self.get_total_count compare.get_total_count
    (self.buckets.zip compare.buckets) 0

end StreamingHistogram

/-!
Embedding of `src/token_generator/token_gen.py`.  Python's generator is
modelled as a function from the (finite) token source to the list of
yielded tokens.  The `stop_token` argument's three shapes (`None`, a
single `str`/`int` token, a list/tuple) are an inductive type, mirroring
the `isinstance` normalisation at the top of the function.
-/

/-- The three accepted shapes of `stop_token`. -/
inductive StopTok (α : Type) : Type
  | none
  | single (t : α)
  | seq (ts : List α)
deriving DecidableEq, Repr

/-- Python `buffer[-n:]`: for `n = 0` this is `buffer[0:]`, the whole
list; for `n ≥ 1` the last `min n (length)` elements. -/
def pySuffix {α : Type} (l : List α) (n : ℕ) : List α :=
  if n = 0 then l else l.drop (l.length - n)

/-- The buffered look-ahead loop of `token_generator`: append the incoming
token, and once the buffer holds at least `stop_sequence.length` tokens
compare the buffer's tail with the stop sequence — on a match the
generator returns (yields nothing further), otherwise it yields the
oldest buffered token (`buffer.pop(0)`).  At the end of the source the
remaining buffer is flushed. -/
def tokenLoop {α : Type} [DecidableEq α] (stop_sequence : List α) :
    List α → List α → List α
  | buffer, [] => buffer
  | buffer, token :: rest =>
    let b := buffer ++ [token]
    if stop_sequence.length ≤ b.length then
      if pySuffix b stop_sequence.length = stop_sequence then []
      else
        match b with
        | [] => []
        | x :: bs => x :: tokenLoop stop_sequence bs rest
    else tokenLoop stop_sequence b rest

/-- `token_generator`: normalise `stop_token`, yield everything when it is
`None`, otherwise run the buffered loop with the stop sequence. -/
def token_generator {α : Type} [DecidableEq α] (token_source : List α)
    (stop_token : StopTok α) : List α :=
  match stop_token with
  | .none => token_source
  | .single t => tokenLoop [t] [] token_source
  | .seq ts => tokenLoop ts [] token_source

/-- Modelled from the spec: "yields exactly the tokens that precede the
first occurrence of the stop token or stop sequence in the source,
excluding the stop sequence itself; if ... the stop sequence never occurs,
it yields every token of the source in order".  `startsWith s l` decides
whether `s` is a prefix of `l`; `specTrim` cuts the source at the first
position where the stop sequence occurs as a contiguous subsequence. -/
def startsWith {α : Type} [DecidableEq α] : List α → List α → Bool
  | [], _ => true
  | _ :: _, [] => false
  | p :: ps, t :: ts => if p = t then startsWith ps ts else false

/-- Modelled from the spec (see `startsWith`): the tokens preceding the
first occurrence of `stop_sequence`. -/
def specTrim {α : Type} [DecidableEq α] (stop_sequence : List α) :
    List α → List α
  | [] => []
  | t :: rest =>
    if startsWith stop_sequence (t :: rest) then []
    else t :: specTrim stop_sequence rest

/-!
Heap-explicit semantics of the histogram.  Python's `HistogramBucket`
objects live on a heap and are passed by reference: `merge` and `clone`
insert the *same* objects into another histogram's bucket list, and
`combine` then mutates `pair[0]` in place.  We model the heap as a list
`Store` of bucket records addressed by ids (ids are never deallocated),
and a histogram as a record `HistRef` holding a list of ids.  Only the
operations needed by the aliasing claims (`push_bucket`, `combine`,
`merge`, `clone`, `reshape`) are given in this semantics; they follow the
source line by line exactly like their value-level counterparts.
-/

/-- The heap of live `HistogramBucket` objects, addressed by position. -/
abbrev Store := List HistogramBucket

/-- A `StreamingHistogram` whose `buckets` list holds object ids into the
store instead of bucket values. -/
structure HistRef : Type where
  max_buckets : ℤ
  bucketIds : List ℕ
  centroids : List ℚ
  min : QI
  max : QI
  count : ℤ
deriving DecidableEq, Repr

/-- Dereference a bucket object (always in range on states reachable from
the constructor; a dangling id is mapped to `IndexError`). -/
def storeGet (s : Store) (id : ℕ) : Except PyErr HistogramBucket :=
  pyGet s id

/-- `StreamingHistogram.__init__` in the heap semantics. -/
def initRef (max_buckets : ℤ) : Except PyErr HistRef :=
  if max_buckets ≤ 0 then .error .valueError
  else .ok ⟨max_buckets, [], [], QI.pinf, ⊥, 0⟩

/-- The `index_to_remove` scan of `combine`, heap semantics: centroids are
read through the store (the `getD` defaults are never consulted on valid
states, where every id is in range). -/
def selectLoopS (s : Store) (ids : List ℕ) (min_diff : ℚ) :
    ℕ → ℕ → ℕ → ℕ
  | 0, _, best => best
  | fuel + 1, i, best =>
    if i < ids.length then
      if (s.getD (ids.getD i 0) ⟨0, 0⟩).centroid -
          (s.getD (ids.getD (i - 1) 0) ⟨0, 0⟩).centroid < min_diff then
        selectLoopS s ids min_diff fuel (i + 1) i
      else selectLoopS s ids min_diff fuel (i + 1) best
    else best

/-- `StreamingHistogram.combine`, heap semantics: `pair[0].combine(pair[1])`
mutates the store at the left bucket's id (visible through every alias),
then the right id is popped from the histogram's lists. -/
def combineS (s : Store) (self : HistRef) : Except PyErr (Store × HistRef) :=
  if self.bucketIds.length = 1 then .ok (s, self)
  else do
    let id0 ← pyGet self.bucketIds 0
    let id1 ← pyGet self.bucketIds 1
    let bucket_1 ← storeGet s id0
    let bucket_2 ← storeGet s id1
    let min_centroid_diff := bucket_2.centroid - bucket_1.centroid
    let index_to_remove :=
      selectLoopS s self.bucketIds min_centroid_diff self.bucketIds.length 2 1
    let lid ← pyGet self.bucketIds (index_to_remove - 1)
    let rid ← pyGet self.bucketIds index_to_remove
    let left ← storeGet s lid
    let right ← storeGet s rid
    let merged ← left.combine right
    .ok (s.set lid merged,
      { self with
        bucketIds := self.bucketIds.eraseIdx index_to_remove,
        centroids := (self.centroids.eraseIdx index_to_remove).set
          (index_to_remove - 1) merged.centroid })

/-- `StreamingHistogram.push_bucket`, heap semantics: the *id* `bid` is
inserted (no copy is made of the object), after reading the object's
current count and centroid from the store. -/
def pushBucketS (s : Store) (self : HistRef) (bid : ℕ) :
    Except PyErr (Store × HistRef) := do
  let bucket ← storeGet s bid
  let s1 := { self with count := self.count + bucket.count }
  let pos := bisect_left s1.centroids bucket.centroid
  let s2 := { s1 with centroids := s1.centroids.insertIdx pos bucket.centroid,
                      bucketIds := s1.bucketIds.insertIdx pos bid }
  if (s2.bucketIds.length : ℤ) > s2.max_buckets then combineS s s2
  else .ok (s, s2)

/-- `StreamingHistogram.merge`, heap semantics: for each bucket object of
`histogram` (by id, in order) push the object itself into `self` and then
reduce once unconditionally.  `histogram`'s id list is never touched, but
the store cells its ids point to may be mutated by the reduction. -/
def mergeS (s : Store) (self histogram : HistRef) :
    Except PyErr (Store × HistRef) :=
  histogram.bucketIds.foldlM
    (fun p bid => do
      let (s1, h1) ← pushBucketS p.1 p.2 bid
      combineS s1 h1)
    (s, self)

/-- `StreamingHistogram.clone`, heap semantics: a fresh histogram capped at
the current bucket count, into which `self`'s bucket *objects* are pushed
by id (aliased, not copied). -/
def cloneS (s : Store) (self : HistRef) : Except PyErr (Store × HistRef) := do
  let c ← initRef (self.bucketIds.length : ℤ)
  self.bucketIds.foldlM (fun p bid => pushBucketS p.1 p.2 bid) (s, c)

/-- Loop body of `StreamingHistogram.reshape`, heap semantics: `newIds`
are the ids of the freshly allocated `new_buckets`; each iteration reads
one of `self`'s buckets and adds its count to one of the fresh objects
(mutating the store). -/
def reshapeLoopS (newIds : List ℕ) (ranges : List QI) :
    Store → List ℕ → Except PyErr Store
  | s, [] => .ok s
  | s, bid :: rest => do
    let b ← storeGet s bid
    let bucket_index := bisect_right ranges (QI.fin b.centroid) - 1
    let s1 ←
      if bucket_index = 0 then do
        let tid ← pyGet newIds 0
        let t ← storeGet s tid
        Except.ok (s.set tid { t with count := t.count + b.count })
      else if bucket_index = newIds.length then do
        let tid ← pyGet newIds (newIds.length - 1)
        let t ← storeGet s tid
        Except.ok (s.set tid { t with count := t.count + b.count })
      else do
        let pid ← pyGet newIds (bucket_index - 1)
        let nid ← pyGet newIds bucket_index
        let prev ← storeGet s pid
        let next ← storeGet s nid
        if |b.centroid - prev.centroid| < |next.centroid - b.centroid| then
          Except.ok (s.set pid { prev with count := prev.count + b.count })
        else
          Except.ok (s.set nid { next with count := next.count + b.count })
    reshapeLoopS newIds ranges s1 rest

/-- `StreamingHistogram.reshape`, heap semantics: allocate one fresh
`(centroid, 0)` object per bucket of `input_histogram` (appending to the
store — these are *new* objects, not aliases of the reference's), build
`bucket_ranges`, redistribute `self`'s counts into the fresh objects, and
finally point `self` at the fresh ids.  Only `bucketIds` and `centroids`
of `self` are reassigned. -/
def reshapeS (s : Store) (self input_histogram : HistRef) :
    Except PyErr (Store × HistRef) := do
  let cs ← input_histogram.bucketIds.mapM
    (fun bid => do pure (← storeGet s bid).centroid)
  let newIds := (List.range cs.length).map (fun i => s.length + i)
  let s1 := s ++ cs.map (fun c => (⟨c, 0⟩ : HistogramBucket))
  let ranges : List QI := ⊥ :: (cs.map QI.fin ++ [QI.pinf])
  let s2 ← reshapeLoopS newIds ranges s1 self.bucketIds
  let finalCentroids ← newIds.mapM (fun bid => do pure (← storeGet s2 bid).centroid)
  .ok (s2, { self with bucketIds := newIds, centroids := finalCentroids })

/-!
Infrastructure for the proofs.  Batteries marks `Rat.add`, `Rat.mul`,
`Rat.inv` and `Rat.sub` `@[irreducible]`; re-marking them semireducible
lets `decide` evaluate the embedding on the concrete inputs appearing in
the claims.
-/

attribute [local semireducible] Rat.add Rat.mul Rat.inv Rat.sub

instance {ε α : Type} [DecidableEq ε] [DecidableEq α] :
    DecidableEq (Except ε α) := fun a b =>
  match a, b with
  | .ok x, .ok y =>
    if h : x = y then .isTrue (by rw [h]) else .isFalse (by simp [h])
  | .error x, .error y =>
    if h : x = y then .isTrue (by rw [h]) else .isFalse (by simp [h])
  | .ok _, .error _ => .isFalse (by simp)
  | .error _, .ok _ => .isFalse (by simp)

/-- Well-formedness: the `_centroids` cache mirrors the bucket centroids.
This holds on every state reachable from the constructor (the code
updates the two lists in lockstep). -/
@[reducible] def Wf (h : StreamingHistogram) : Prop :=
  h.centroids = h.buckets.map HistogramBucket.centroid

/-- The centroid cache is in non-decreasing order. -/
@[reducible] def SortedCentroids (h : StreamingHistogram) : Prop :=
  h.centroids.Sorted (· ≤ ·)

/-- Every bucket's count is non-negative. -/
@[reducible] def NonnegCounts (h : StreamingHistogram) : Prop :=
  ∀ b ∈ h.buckets, 0 ≤ b.count

/-- The capacity invariant of claim C3 together with the well-formedness
needed to push it through the operations. -/
@[reducible] def CapInv (h : StreamingHistogram) : Prop :=
  Wf h ∧ 1 ≤ h.max_buckets ∧ (h.buckets.length : ℤ) ≤ h.max_buckets

/-- The order/positivity invariant of claim C4. -/
@[reducible] def OrderInv (h : StreamingHistogram) : Prop :=
  Wf h ∧ SortedCentroids h ∧ NonnegCounts h

/-- The intermediate state built inside `push_bucket` (the source's `s2`):
count added, bucket and centroid inserted at the `bisect_left` position,
before any reduction. -/
def StreamingHistogram.grown (self : StreamingHistogram)
    (bucket : HistogramBucket) : StreamingHistogram :=
  { self with
    count := self.count + bucket.count,
    centroids := self.centroids.insertIdx
      (bisect_left self.centroids bucket.centroid) bucket.centroid,
    buckets := self.buckets.insertIdx
      (bisect_left self.centroids bucket.centroid) bucket }

/-- The final `_min` / `_max` refresh of `push_value`. -/
def StreamingHistogram.minmaxUpdated (s1 : StreamingHistogram)
    (value : ℚ) : StreamingHistogram :=
  { s1 with
    min := if QI.fin value < s1.min then QI.fin value else s1.min,
    max := if s1.max < QI.fin value then QI.fin value else s1.max }

/-- C1: pushing `[1, 2, 3, 4, 5]` one-by-one into a fresh histogram with
`max_buckets = 3` does NOT produce the buckets the spec promises
(`(1.5, 2), (3.5, 2), (5.0, 1)`); because `combine` never updates
`min_centroid_diff` inside its scan, it merges the *last* adjacent pair
whose gap beats the *first* pair's gap, here `(4, 1)` and `(5, 1)`, and
the code produces `(1.5, 2), (3, 1), (4.5, 2)` (total count 5).  This
evaluation documents the code's actual behaviour at the failing input. -/
theorem C1_combine_eval :
    ((StreamingHistogram.init 3).bind
        (fun h => h.push_list [1, 2, 3, 4, 5])).map
        (fun h => (h.buckets, h.count))
      = .ok ([⟨3/2, 2⟩, ⟨3, 1⟩, ⟨9/2, 2⟩], 5) ∧
    ((StreamingHistogram.init 3).bind
        (fun h => h.push_list [1, 2, 3, 4, 5])).map
        (fun h => h.buckets)
      ≠ .ok [⟨3/2, 2⟩, ⟨7/2, 2⟩, ⟨5, 1⟩] := by
  decide

/-- C10: `is_sorted` returns `true` exactly when every adjacent pair of
buckets satisfies `centroid[i] ≤ centroid[i+1]` (non-strict comparison,
i.e. `Chain' (· ≤ ·)` on the centroid sequence); in particular it returns
`true` on a histogram holding two buckets with equal centroids, so a
`true` result does not certify the strict ascending-centroid invariant. -/
theorem C10_is_sorted_nonstrict :
    (∀ h : StreamingHistogram,
      h.is_sorted = true ↔
        List.Chain' (· ≤ ·) (h.buckets.map HistogramBucket.centroid)) ∧
    StreamingHistogram.is_sorted
        ⟨2, [⟨1, 1⟩, ⟨1, 1⟩], [1, 1], QI.fin 1, QI.fin 1, 2⟩ = true ∧
    ¬ List.Chain' (· < ·)
        (([⟨1, 1⟩, ⟨1, 1⟩] : List HistogramBucket).map
          HistogramBucket.centroid) := by
  refine ⟨fun h => ?_, by decide, by simp [List.chain'_cons]⟩
  rw [StreamingHistogram.is_sorted, List.all_eq_true, List.chain'_iff_get]
  constructor
  · intro hall i hi
    have hmem : i ∈ List.range (h.buckets.length - 1) := by
      rw [List.mem_range]
      simpa using hi
    have := hall i hmem
    rw [decide_eq_true_iff] at this
    have hi1 : i < h.buckets.length := by
      have := List.length_map h.buckets HistogramBucket.centroid ▸ hi
      omega
    have hi2 : i + 1 < h.buckets.length := by
      have := List.length_map h.buckets HistogramBucket.centroid ▸ hi
      omega
    rw [List.get_map, List.get_map]
    rwa [List.getD_eq_get _ _ hi1, List.getD_eq_get _ _ hi2] at this
  · intro hchain i hmem
    rw [List.mem_range] at hmem
    rw [decide_eq_true_iff]
    have hi1 : i < h.buckets.length := by omega
    have hi2 : i + 1 < h.buckets.length := by omega
    have hi' : i < (h.buckets.map HistogramBucket.centroid).length - 1 := by
      rw [List.length_map]
      omega
    have := hchain i hi'
    rw [List.get_map, List.get_map] at this
    rwa [List.getD_eq_get _ _ hi1, List.getD_eq_get _ _ hi2]

/-- A successful prefix test bounds the length of the candidate prefix. -/
theorem startsWith_length_le {α : Type} [DecidableEq α] :
    ∀ (s l : List α), startsWith s l = true → s.length ≤ l.length
  | [], _, _ => by simp
  | _ :: _, [], h => by simp [startsWith] at h
  | p :: ps, t :: ts, h => by
    rw [startsWith] at h
    by_cases hpt : p = t
    · rw [if_pos hpt] at h
      have := startsWith_length_le ps ts h
      simpa using this
    · rw [if_neg hpt] at h
      exact absurd h (by simp)

/-- On a long enough list, `startsWith` agrees with equality to the
corresponding `take`. -/
theorem startsWith_iff_take {α : Type} [DecidableEq α] :
    ∀ (s l : List α), s.length ≤ l.length →
      (startsWith s l = true ↔ s = l.take s.length)
  | [], l, _ => by simp [startsWith]
  | _ :: _, [], h => by simp at h
  | p :: ps, t :: ts, h => by
    rw [startsWith]
    simp only [List.length_cons, List.take_succ_cons]
    by_cases hpt : p = t
    · subst hpt
      rw [if_pos rfl, startsWith_iff_take ps ts (by simpa using h)]
      simp
    · rw [if_neg hpt]
      simp [hpt]

/-- A list always extends itself. -/
theorem startsWith_append_self {α : Type} [DecidableEq α] :
    ∀ (s r : List α), startsWith s (s ++ r) = true
  | [], _ => by simp [startsWith]
  | p :: ps, r => by
    rw [List.cons_append, startsWith, if_pos rfl]
    exact startsWith_append_self ps r

/-- `specTrim` keeps a list that is strictly shorter than the stop
sequence whole. -/
theorem specTrim_short {α : Type} [DecidableEq α] (stop : List α) :
    ∀ (l : List α), l.length < stop.length → specTrim stop l = l
  | [], _ => by simp [specTrim]
  | t :: rest, h => by
    rw [specTrim]
    have hsw : ¬ startsWith stop (t :: rest) = true := by
      intro hc
      have := startsWith_length_le stop (t :: rest) hc
      omega
    rw [if_neg hsw, specTrim_short stop rest (by simp at h ⊢; omega)]

/-- The buffered look-ahead loop computes exactly the cut at the first
occurrence of the (nonempty) stop sequence inside `buffer ++ src`,
provided the buffer is still shorter than the stop sequence (the loop's
invariant). -/
theorem tokenLoop_eq_specTrim {α : Type} [DecidableEq α] (stop : List α)
    (hs : stop ≠ []) :
    ∀ (src buffer : List α), buffer.length < stop.length →
      tokenLoop stop buffer src = specTrim stop (buffer ++ src)
  | [], buffer, hb => by
    rw [tokenLoop, List.append_nil, specTrim_short stop buffer hb]
  | token :: rest, buffer, hb => by
    have hslen : stop.length ≠ 0 := by
      simpa using List.length_eq_zero.not.mpr hs
    rw [tokenLoop]
    by_cases hlen : stop.length ≤ (buffer ++ [token]).length
    · have hblen : (buffer ++ [token]).length = stop.length := by
        simp at hlen ⊢
        omega
      have hsuf : pySuffix (buffer ++ [token]) stop.length
          = buffer ++ [token] := by
        rw [pySuffix, if_neg hslen, hblen, Nat.sub_self, List.drop_zero]
      rw [if_pos hlen, hsuf]
      by_cases hmatch : buffer ++ [token] = stop
      · rw [if_pos hmatch]
        have hbr : buffer ++ token :: rest = stop ++ rest := by
          rw [← hmatch]
          simp
        rw [hbr]
        obtain ⟨s0, s', hstop⟩ := List.exists_cons_of_ne_nil hs
        rw [hstop, List.cons_append, specTrim,
          if_pos (by rw [← List.cons_append, ← hstop]
                     exact startsWith_append_self stop rest)]
      · rw [if_neg hmatch]
        have hne : buffer ++ [token] ≠ [] := by simp
        obtain ⟨x, bs, hxbs⟩ := List.exists_cons_of_ne_nil hne
        have hbs : bs.length < stop.length := by
          have := congrArg List.length hxbs
          simp at this
          omega
        rw [hxbs]
        have hbr : buffer ++ token :: rest = x :: (bs ++ rest) := by
          rw [← List.cons_append, ← hxbs, List.append_assoc]
          simp
        show x :: tokenLoop stop bs rest = _
        rw [tokenLoop_eq_specTrim stop hs rest bs hbs, hbr, specTrim]
        have hsw : ¬ startsWith stop (x :: (bs ++ rest)) = true := by
          intro hc
          have h1 := congrArg List.length hxbs
          simp at h1
          rw [startsWith_iff_take stop (x :: (bs ++ rest))
            (by simp at hblen ⊢; omega)] at hc
          have htake : (x :: (bs ++ rest)).take stop.length = x :: bs := by
            rw [← List.cons_append, ← hxbs, ← hblen, List.take_left]
          rw [htake, ← hxbs] at hc
          exact hmatch hc.symm
        rw [if_neg hsw]
    · rw [if_neg hlen]
      have hblen : (buffer ++ [token]).length < stop.length := by omega
      rw [tokenLoop_eq_specTrim stop hs rest (buffer ++ [token]) hblen,
        List.append_assoc]
      simp

/-- C9 (counterexample): with the stop specification `seq []` (an empty
stop-token list, which the source normalises to the empty stop sequence),
`token_generator` yields the whole source, whereas "the tokens that
precede the first occurrence of the stop sequence" is the empty list (the
empty sequence occurs at position 0, as `specTrim` computes).  So the
claim, quantified over *every* stop specification, is false. -/
theorem C9_empty_stop_counterexample :
    token_generator [(0 : ℤ)] (.seq []) = [0] ∧
      specTrim ([] : List ℤ) [0] = [] := by
  decide

/-- C9 (amended): for a `None` stop token and for every *nonempty* stop
sequence (in particular for every single stop token), `token_generator`
yields exactly the tokens preceding the first occurrence of the stop
sequence in the source, excluding the stop sequence itself, and yields
every token when the stop sequence never occurs — i.e. it agrees with the
specification function `specTrim`.  The empty stop-sequence list instead
behaves like "no stop token" (see the counterexample). -/
theorem C9_token_generator_amended {α : Type} [DecidableEq α]
    (src : List α) :
    (token_generator src (.none : StopTok α) = src) ∧
    (∀ t : α, token_generator src (.single t) = specTrim [t] src) ∧
    (∀ ts : List α, ts ≠ [] →
      token_generator src (.seq ts) = specTrim ts src) := by
  refine ⟨rfl, fun t => ?_, fun ts hts => ?_⟩
  · have := tokenLoop_eq_specTrim [t] (by simp) src [] (by simp)
    simpa [token_generator] using this
  · have := tokenLoop_eq_specTrim ts hts src []
      (by simpa using List.length_pos.mpr hts)
    simpa [token_generator] using this

/-- C9 (witness): the amended equivalence evaluated on the docstring's
own examples. -/
theorem C9_amended_witness :
    token_generator [(1 : ℤ), 2, 7, 8, 3] (.seq [7, 8])
      = specTrim [7, 8] [1, 2, 7, 8, 3] ∧
    token_generator [(1 : ℤ), 2, 7, 8, 3] (.seq [7, 8]) = [1, 2] := by
  constructor
  · exact (C9_token_generator_amended [1, 2, 7, 8, 3]).2.2 [7, 8] (by decide)
  · decide


/-- The bisect loops never move the cursor below `lo`. -/
theorem bisectLeftLoop_ge {α : Type} [LinearOrder α] (a : List α) (x : α) :
    ∀ (fuel lo hi : ℕ), lo ≤ bisectLeftLoop a x fuel lo hi
  | 0, _, _ => Nat.le_refl _
  | fuel + 1, lo, hi => by
    rw [bisectLeftLoop]
    by_cases h : lo < hi
    · rw [if_pos h]
      by_cases hm : a.getD ((lo + hi) / 2) x < x
      · rw [if_pos hm]
        exact le_trans (by omega) (bisectLeftLoop_ge a x fuel _ hi)
      · rw [if_neg hm]
        exact bisectLeftLoop_ge a x fuel lo _
    · rw [if_neg h]

/-- The bisect loops never move the cursor above the initial `hi`. -/
theorem bisectLeftLoop_le {α : Type} [LinearOrder α] (a : List α) (x : α) :
    ∀ (fuel lo hi : ℕ), lo ≤ hi → bisectLeftLoop a x fuel lo hi ≤ hi
  | 0, _, _, h => h
  | fuel + 1, lo, hi, h => by
    rw [bisectLeftLoop]
    by_cases hlt : lo < hi
    · rw [if_pos hlt]
      by_cases hm : a.getD ((lo + hi) / 2) x < x
      · rw [if_pos hm]
        exact bisectLeftLoop_le a x fuel _ hi (by omega)
      · rw [if_neg hm]
        exact le_trans (bisectLeftLoop_le a x fuel lo _ (by omega)) (by omega)
    · rw [if_neg hlt]
      exact h

/-- Exit analysis of `bisect_left`'s loop: the result is the initial `lo`,
or the probe just below the result compared `< x`. -/
theorem bisectLeftLoop_exit_lower {α : Type} [LinearOrder α] (a : List α)
    (x : α) {r : ℕ} :
    ∀ (fuel lo hi : ℕ), bisectLeftLoop a x fuel lo hi = r →
      r = lo ∨ a.getD (r - 1) x < x
  | 0, lo, _, hr => Or.inl hr.symm
  | fuel + 1, lo, hi, hr => by
    rw [bisectLeftLoop] at hr
    by_cases h : lo < hi
    · rw [if_pos h] at hr
      by_cases hm : a.getD ((lo + hi) / 2) x < x
      · rw [if_pos hm] at hr
        rcases bisectLeftLoop_exit_lower a x fuel _ hi hr with h1 | h1
        · refine Or.inr ?_
          rw [h1, Nat.add_sub_cancel]
          exact hm
        · exact Or.inr h1
      · rw [if_neg hm] at hr
        exact bisectLeftLoop_exit_lower a x fuel lo _ hr
    · rw [if_neg h] at hr
      exact Or.inl hr.symm

/-- Exit analysis of `bisect_left`'s loop (with enough fuel): the result
is the initial `hi`, or the probe at the result compared `≥ x`. -/
theorem bisectLeftLoop_exit_upper {α : Type} [LinearOrder α] (a : List α)
    (x : α) {r : ℕ} :
    ∀ (fuel lo hi : ℕ), lo ≤ hi → hi - lo ≤ fuel →
      bisectLeftLoop a x fuel lo hi = r →
      r = hi ∨ ¬ a.getD r x < x
  | 0, lo, hi, hle, hfuel, hr => by
    have : lo = hi := by omega
    exact Or.inl (hr ▸ this)
  | fuel + 1, lo, hi, hle, hfuel, hr => by
    rw [bisectLeftLoop] at hr
    by_cases h : lo < hi
    · rw [if_pos h] at hr
      by_cases hm : a.getD ((lo + hi) / 2) x < x
      · rw [if_pos hm] at hr
        exact bisectLeftLoop_exit_upper a x fuel _ hi (by omega) (by omega) hr
      · rw [if_neg hm] at hr
        rcases bisectLeftLoop_exit_upper a x fuel lo _ (by omega) (by omega)
            hr with h1 | h1
        · exact Or.inr (h1 ▸ hm)
        · exact Or.inr h1
    · rw [if_neg h] at hr
      exact Or.inl (hr ▸ (by omega : lo = hi))

/-- The right-bisect loop never moves the cursor below `lo`. -/
theorem bisectRightLoop_ge {α : Type} [LinearOrder α] (a : List α) (x : α) :
    ∀ (fuel lo hi : ℕ), lo ≤ bisectRightLoop a x fuel lo hi
  | 0, _, _ => Nat.le_refl _
  | fuel + 1, lo, hi => by
    rw [bisectRightLoop]
    by_cases h : lo < hi
    · rw [if_pos h]
      by_cases hm : x < a.getD ((lo + hi) / 2) x
      · rw [if_pos hm]
        exact bisectRightLoop_ge a x fuel lo _
      · rw [if_neg hm]
        exact le_trans (by omega) (bisectRightLoop_ge a x fuel _ hi)
    · rw [if_neg h]

/-- The right-bisect loop never moves the cursor above the initial `hi`. -/
theorem bisectRightLoop_le {α : Type} [LinearOrder α] (a : List α) (x : α) :
    ∀ (fuel lo hi : ℕ), lo ≤ hi → bisectRightLoop a x fuel lo hi ≤ hi
  | 0, _, _, h => h
  | fuel + 1, lo, hi, h => by
    rw [bisectRightLoop]
    by_cases hlt : lo < hi
    · rw [if_pos hlt]
      by_cases hm : x < a.getD ((lo + hi) / 2) x
      · rw [if_pos hm]
        exact le_trans (bisectRightLoop_le a x fuel lo _ (by omega)) (by omega)
      · rw [if_neg hm]
        exact bisectRightLoop_le a x fuel _ hi (by omega)
    · rw [if_neg hlt]
      exact h

/-- Exit analysis of `bisect_right`'s loop: the result is the initial
`lo`, or the probe just below the result compared `≤ x`. -/
theorem bisectRightLoop_exit_lower {α : Type} [LinearOrder α] (a : List α)
    (x : α) {r : ℕ} :
    ∀ (fuel lo hi : ℕ), bisectRightLoop a x fuel lo hi = r →
      r = lo ∨ ¬ x < a.getD (r - 1) x
  | 0, lo, _, hr => Or.inl hr.symm
  | fuel + 1, lo, hi, hr => by
    rw [bisectRightLoop] at hr
    by_cases h : lo < hi
    · rw [if_pos h] at hr
      by_cases hm : x < a.getD ((lo + hi) / 2) x
      · rw [if_pos hm] at hr
        exact bisectRightLoop_exit_lower a x fuel lo _ hr
      · rw [if_neg hm] at hr
        rcases bisectRightLoop_exit_lower a x fuel _ hi hr with h1 | h1
        · refine Or.inr ?_
          rw [h1, Nat.add_sub_cancel]
          exact hm
        · exact Or.inr h1
    · rw [if_neg h] at hr
      exact Or.inl hr.symm

/-- Exit analysis of `bisect_right`'s loop (with enough fuel): the result
is the initial `hi`, or the probe at the result compared `> x`. -/
theorem bisectRightLoop_exit_upper {α : Type} [LinearOrder α] (a : List α)
    (x : α) {r : ℕ} :
    ∀ (fuel lo hi : ℕ), lo ≤ hi → hi - lo ≤ fuel →
      bisectRightLoop a x fuel lo hi = r →
      r = hi ∨ x < a.getD r x
  | 0, lo, hi, hle, hfuel, hr => by
    have : lo = hi := by omega
    exact Or.inl (hr ▸ this)
  | fuel + 1, lo, hi, hle, hfuel, hr => by
    rw [bisectRightLoop] at hr
    by_cases h : lo < hi
    · rw [if_pos h] at hr
      by_cases hm : x < a.getD ((lo + hi) / 2) x
      · rw [if_pos hm] at hr
        rcases bisectRightLoop_exit_upper a x fuel lo _ (by omega) (by omega)
            hr with h1 | h1
        · exact Or.inr (h1 ▸ hm)
        · exact Or.inr h1
      · rw [if_neg hm] at hr
        exact bisectRightLoop_exit_upper a x fuel _ hi (by omega) (by omega) hr
    · rw [if_neg h] at hr
      exact Or.inl (hr ▸ (by omega : lo = hi))

/-- `bisect_left` always lands inside `[0, a.length]`. -/
theorem bisect_left_le_length {α : Type} [LinearOrder α] (a : List α)
    (x : α) : bisect_left a x ≤ a.length :=
  bisectLeftLoop_le a x a.length 0 a.length (Nat.zero_le _)

/-- On a `≤`-sorted list, every entry before the `bisect_left` position is
`< x`. -/
theorem bisect_left_lower {α : Type} [LinearOrder α] {a : List α} {x : α}
    (hs : a.Sorted (· ≤ ·)) :
    ∀ i, i < bisect_left a x → ∀ (hi : i < a.length), a.get ⟨i, hi⟩ < x := by
  intro i hilt hi
  have hr : bisectLeftLoop a x a.length 0 a.length = bisect_left a x := rfl
  rcases bisectLeftLoop_exit_lower a x a.length 0 a.length hr with h | h
  · omega
  · have hrpos : 0 < bisect_left a x := by omega
    have hrlen : bisect_left a x ≤ a.length := bisect_left_le_length a x
    have hprev : bisect_left a x - 1 < a.length := by omega
    rw [List.getD_eq_getElem a x hprev] at h
    have hle : a.get ⟨i, hi⟩ ≤ a[bisect_left a x - 1] := by
      rcases Nat.eq_or_lt_of_le (by omega : i ≤ bisect_left a x - 1) with
        he | hlt
      · subst he
        simp [List.get_eq_getElem]
      · simpa using List.pairwise_iff_getElem.mp hs i _ hi hprev hlt
    exact lt_of_le_of_lt hle h

/-- On a `≤`-sorted list, every entry at or after the `bisect_left`
position is `≥ x`. -/
theorem bisect_left_upper {α : Type} [LinearOrder α] {a : List α} {x : α}
    (hs : a.Sorted (· ≤ ·)) :
    ∀ i, bisect_left a x ≤ i → ∀ (hi : i < a.length), x ≤ a.get ⟨i, hi⟩ := by
  intro i hige hi
  have hr : bisectLeftLoop a x a.length 0 a.length = bisect_left a x := rfl
  rcases bisectLeftLoop_exit_upper a x a.length 0 a.length (Nat.zero_le _)
      (by omega) hr with h | h
  · -- the search landed at `a.length`, so there is no such `i`
    omega
  · have hrlen : bisect_left a x < a.length := by omega
    rw [List.getD_eq_getElem a x hrlen, not_lt] at h
    have hle : a[bisect_left a x] ≤ a.get ⟨i, hi⟩ := by
      rcases Nat.eq_or_lt_of_le hige with he | hlt
      · subst he
        simp [List.get_eq_getElem]
      · simpa using List.pairwise_iff_getElem.mp hs _ i hrlen hi hlt
    exact le_trans h hle

/-- `map` commutes with `insertIdx`. -/
theorem map_insertIdx_comm {α β : Type} (f : α → β) :
    ∀ (l : List α) (i : ℕ) (a : α),
      (l.insertIdx i a).map f = (l.map f).insertIdx i (f a)
  | _, 0, _ => by simp
  | [], i + 1, a => by simp
  | x :: l, i + 1, a => by
    rw [List.insertIdx_succ_cons, List.map_cons, List.map_cons,
      List.insertIdx_succ_cons, map_insertIdx_comm f l i a]

/-- The bucket-list update of `combine` (write `c` at `idx - 1`, then pop
`idx`) in canonical take/cons/drop form. -/
theorem set_eraseIdx_surgery {α : Type} (c : α) :
    ∀ (l : List α) (idx : ℕ), 1 ≤ idx → idx < l.length →
      (l.set (idx - 1) c).eraseIdx idx
        = l.take (idx - 1) ++ c :: l.drop (idx + 1)
  | [], _, _, h2 => by simp at h2
  | a :: l, 1, _, h2 => by
    match l with
    | [] => simp at h2
    | b :: l' => simp [List.set]
  | a :: l, idx + 2, _, h2 => by
    have ih := set_eraseIdx_surgery c l (idx + 1) (by omega)
      (by simp at h2; omega)
    simp only [Nat.add_sub_cancel] at ih ⊢
    show (a :: l.set idx c).eraseIdx (idx + 2)
      = a :: l.take idx ++ c :: l.drop (idx + 2)
    rw [List.eraseIdx_cons_succ, ih]
    simp

/-- The centroid-list update of `combine` (pop `idx`, then write `c` at
`idx - 1`) in the same canonical form. -/
theorem eraseIdx_set_surgery {α : Type} (c : α) :
    ∀ (l : List α) (idx : ℕ), 1 ≤ idx → idx < l.length →
      (l.eraseIdx idx).set (idx - 1) c
        = l.take (idx - 1) ++ c :: l.drop (idx + 1)
  | [], _, _, h2 => by simp at h2
  | a :: l, 1, _, h2 => by
    match l with
    | [] => simp at h2
    | b :: l' => simp [List.set]
  | a :: l, idx + 2, _, h2 => by
    have ih := eraseIdx_set_surgery c l (idx + 1) (by omega)
      (by simp at h2; omega)
    simp only [Nat.add_sub_cancel] at ih ⊢
    show ((a :: l).eraseIdx (idx + 2)).set (idx + 1) c
      = a :: l.take idx ++ c :: l.drop (idx + 2)
    rw [List.eraseIdx_cons_succ, List.set_cons_succ, ih]
    simp

/-- Replacing a `≤`-sorted list's entries `idx - 1` and `idx` by a single
value `c` lying between them keeps the list sorted. -/
theorem sorted_surgery {α : Type} [LinearOrder α] {l : List α}
    (hs : l.Sorted (· ≤ ·)) {idx : ℕ} (h1 : 1 ≤ idx) (h2 : idx < l.length)
    {c : α} (hc1 : l[idx - 1] ≤ c) (hc2 : c ≤ l[idx]) :
    (l.take (idx - 1) ++ c :: l.drop (idx + 1)).Sorted (· ≤ ·) := by
  have hmem_idx : l[idx] ∈ l.take (idx + 1) := by
    rw [List.mem_iff_getElem]
    refine ⟨idx, by simp; omega, ?_⟩
    rw [List.getElem_take]
  have hmem_prev : l[idx - 1] ∈ l.drop (idx - 1) := by
    rw [List.drop_eq_getElem_cons (by omega)]
    exact List.mem_cons_self _ _
  rw [List.Sorted, List.pairwise_append]
  refine ⟨List.Pairwise.sublist (List.take_sublist _ _) hs, ?_, ?_⟩
  · rw [List.pairwise_cons]
    refine ⟨?_, List.Pairwise.sublist (List.drop_sublist _ _) hs⟩
    intro y hy
    have h3 : l[idx] ≤ y :=
      hs.rel_of_mem_take_of_mem_drop hmem_idx
        (by
          rw [List.mem_iff_getElem] at hy ⊢
          obtain ⟨j, hj, rfl⟩ := hy
          exact ⟨j, by simp at hj ⊢; omega, by rw [List.getElem_drop]⟩)
    exact le_trans hc2 h3
  · intro a ha y hy
    have ha' : a ≤ l[idx - 1] :=
      hs.rel_of_mem_take_of_mem_drop ha hmem_prev
    rcases List.mem_cons.mp hy with rfl | hy'
    · exact le_trans ha' hc1
    · have h3 : l[idx] ≤ y :=
        hs.rel_of_mem_take_of_mem_drop hmem_idx
          (by
            rw [List.mem_iff_getElem] at hy' ⊢
            obtain ⟨j, hj, rfl⟩ := hy'
            exact ⟨j, by simp at hj ⊢; omega, by rw [List.getElem_drop]⟩)
      exact le_trans ha' (le_trans hc1 (le_trans hc2 h3))

/-- `insertIdx` within bounds in canonical take/cons/drop form. -/
theorem insertIdx_surgery {α : Type} (c : α) :
    ∀ (l : List α) (i : ℕ), i ≤ l.length →
      l.insertIdx i c = l.take i ++ c :: l.drop i
  | _, 0, _ => by simp
  | [], i + 1, h => by simp at h
  | x :: l, i + 1, h => by
    rw [List.insertIdx_succ_cons, insertIdx_surgery c l i (by simp at h; omega)]
    simp

/-- Inserting `x` at `bisect_left l x` keeps a `≤`-sorted list sorted. -/
theorem sorted_insert_bisect_left {α : Type} [LinearOrder α] {l : List α}
    (hs : l.Sorted (· ≤ ·)) (x : α) :
    (l.insertIdx (bisect_left l x) x).Sorted (· ≤ ·) := by
  have hle := bisect_left_le_length l x
  rw [insertIdx_surgery x l _ hle, List.Sorted, List.pairwise_append]
  refine ⟨List.Pairwise.sublist (List.take_sublist _ _) hs, ?_, ?_⟩
  · rw [List.pairwise_cons]
    refine ⟨?_, List.Pairwise.sublist (List.drop_sublist _ _) hs⟩
    intro y hy
    rw [List.mem_iff_getElem] at hy
    obtain ⟨j, hj, rfl⟩ := hy
    rw [List.getElem_drop]
    exact bisect_left_upper hs _ (by omega) (by simp at hj; omega)
  · intro a ha y hy
    have ha' : a < x := by
      rw [List.mem_iff_getElem] at ha
      obtain ⟨j, hj, rfl⟩ := ha
      rw [List.getElem_take]
      exact bisect_left_lower hs j (by simp at hj; omega)
        (by simp at hj; omega)
    rcases List.mem_cons.mp hy with rfl | hy'
    · exact le_of_lt ha'
    · rw [List.mem_iff_getElem] at hy'
      obtain ⟨j, hj, rfl⟩ := hy'
      rw [List.getElem_drop]
      exact le_trans (le_of_lt ha')
        (bisect_left_upper hs _ (by omega) (by simp at hj; omega))

/-- Successful `pyGet` means in-range access. -/
theorem pyGet_ok {α : Type} {l : List α} {i : ℕ} {v : α}
    (h : pyGet l i = .ok v) : ∃ hlt : i < l.length, l.get ⟨i, hlt⟩ = v := by
  rw [pyGet] at h
  split at h
  · next hlt => exact ⟨hlt, by injection h⟩
  · exact absurd h (by simp)

/-- In-range `pyGet` succeeds. -/
theorem pyGet_of_lt {α : Type} {l : List α} {i : ℕ} (h : i < l.length) :
    pyGet l i = .ok (l.get ⟨i, h⟩) := by
  rw [pyGet, dif_pos h]

/-- Out-of-range `pyGet` raises. -/
theorem pyGet_of_ge {α : Type} {l : List α} {i : ℕ} (h : ¬ i < l.length) :
    pyGet l i = .error .indexError := by
  rw [pyGet, dif_neg h]

/-- `bind` computation rules for `Except` (definitional). -/
theorem ok_bind {ε α β : Type} (a : α) (f : α → Except ε β) :
    (Except.ok a >>= f : Except ε β) = f a := rfl

/-- `bind` on an error propagates the error (definitional). -/
theorem error_bind {ε α β : Type} (e : ε) (f : α → Except ε β) :
    (Except.error e >>= f : Except ε β) = Except.error e := rfl

/-- The buggy scan of `combine` still returns an index inside
`[1, length)`. -/
theorem selectLoop_bound (bs : List HistogramBucket) (d : ℚ) :
    ∀ (fuel i best : ℕ), 1 ≤ i → 1 ≤ best → best < bs.length →
      1 ≤ StreamingHistogram.selectLoop bs d fuel i best ∧
        StreamingHistogram.selectLoop bs d fuel i best < bs.length
  | 0, _, _, _, h1, h2 => ⟨h1, h2⟩
  | fuel + 1, i, best, hi1, h1, h2 => by
    rw [StreamingHistogram.selectLoop]
    by_cases hi : i < bs.length
    · rw [if_pos hi]
      by_cases hd : (bs.getD i ⟨0, 0⟩).centroid -
          (bs.getD (i - 1) ⟨0, 0⟩).centroid < d
      · rw [if_pos hd]
        exact selectLoop_bound bs d fuel (i + 1) i (by omega) hi1 hi
      · rw [if_neg hd]
        exact selectLoop_bound bs d fuel (i + 1) best (by omega) h1 h2
    · rw [if_neg hi]
      exact ⟨h1, h2⟩

/-- Characterisation of a successful `HistogramBucket.combine`. -/
theorem hb_combine_ok {a b m : HistogramBucket}
    (h : a.combine b = .ok m) :
    a.count + b.count ≠ 0 ∧ m.count = a.count + b.count ∧
      m.centroid = (a.get_area + b.get_area) / ((a.count + b.count : ℤ) : ℚ) := by
  simp only [HistogramBucket.combine] at h
  split at h
  · exact absurd h (by simp)
  · next hne =>
    injection h with h
    refine ⟨hne, ?_, ?_⟩ <;> rw [← h]

/-- The weighted average computed by `HistogramBucket.combine` lies
between the two centroids when both counts are non-negative. -/
theorem hb_combine_centroid_between {a b m : HistogramBucket}
    (h : a.combine b = .ok m) (ha : 0 ≤ a.count) (hb : 0 ≤ b.count)
    (hc : a.centroid ≤ b.centroid) :
    a.centroid ≤ m.centroid ∧ m.centroid ≤ b.centroid := by
  obtain ⟨hne, hcount, hcentroid⟩ := hb_combine_ok h
  have hposZ : 0 < a.count + b.count := lt_of_le_of_ne (by omega) (Ne.symm hne)
  have hpos : (0 : ℚ) < ((a.count + b.count : ℤ) : ℚ) := by exact_mod_cast hposZ
  have hca : (0 : ℚ) ≤ (a.count : ℚ) := by exact_mod_cast ha
  have hcb : (0 : ℚ) ≤ (b.count : ℚ) := by exact_mod_cast hb
  rw [hcentroid, HistogramBucket.get_area, HistogramBucket.get_area]
  constructor
  · rw [le_div_iff hpos]
    push_cast
    nlinarith [mul_le_mul_of_nonneg_right hc hcb]
  · rw [div_le_iff hpos]
    push_cast
    nlinarith [mul_le_mul_of_nonneg_right hc hca]

/-- Full characterisation of a successful bucket-reduction step: either
the histogram had exactly one bucket and is unchanged, or some adjacent
pair at `(idx - 1, idx)` with `1 ≤ idx < length` was merged and the right
bucket popped (which pair is chosen by the scan does not matter for the
invariant proofs). -/
theorem combine_cases {self h' : StreamingHistogram}
    (hok : self.combine = .ok h') :
    (self.buckets.length = 1 ∧ h' = self) ∨
    ∃ (idx : ℕ) (hpos : 1 ≤ idx) (hlt : idx < self.buckets.length)
      (merged : HistogramBucket),
      2 ≤ self.buckets.length ∧
      (self.buckets.get ⟨idx - 1, by omega⟩).combine
        (self.buckets.get ⟨idx, hlt⟩) = .ok merged ∧
      h' = { self with
             buckets := (self.buckets.set (idx - 1) merged).eraseIdx idx,
             centroids := (self.centroids.eraseIdx idx).set (idx - 1)
               merged.centroid } := by
  rw [StreamingHistogram.combine] at hok
  split at hok
  · next hlen =>
    injection hok with hok
    exact Or.inl ⟨hlen, hok.symm⟩
  · next hlen =>
    cases h0 : pyGet self.buckets 0 with
    | error e =>
      rw [h0, error_bind] at hok
      exact absurd hok (by simp)
    | ok bucket_1 =>
      rw [h0, ok_bind] at hok
      cases h1 : pyGet self.buckets 1 with
      | error e =>
        rw [h1, error_bind] at hok
        exact absurd hok (by simp)
      | ok bucket_2 =>
        rw [h1, ok_bind] at hok
        dsimp only at hok
        obtain ⟨hlt1, -⟩ := pyGet_ok h1
        have hlen2 : 2 ≤ self.buckets.length := hlt1
        obtain ⟨hb1, hb2⟩ := selectLoop_bound self.buckets
          (bucket_2.centroid - bucket_1.centroid) self.buckets.length 2 1
          (by omega) (by omega) (by omega)
        cases hL : pyGet self.buckets
            (StreamingHistogram.selectLoop self.buckets
              (bucket_2.centroid - bucket_1.centroid)
              self.buckets.length 2 1 - 1) with
        | error e =>
          rw [hL, error_bind] at hok
          exact absurd hok (by simp)
        | ok left =>
          rw [hL, ok_bind] at hok
          cases hR : pyGet self.buckets
              (StreamingHistogram.selectLoop self.buckets
                (bucket_2.centroid - bucket_1.centroid)
                self.buckets.length 2 1) with
          | error e =>
            rw [hR, error_bind] at hok
            exact absurd hok (by simp)
          | ok right =>
            rw [hR, ok_bind] at hok
            cases hM : left.combine right with
            | error e =>
              rw [hM, error_bind] at hok
              exact absurd hok (by simp)
            | ok merged =>
              rw [hM, ok_bind] at hok
              injection hok with hok
              refine Or.inr ⟨_, hb1, hb2, merged, hlen2, ?_, hok.symm⟩
              obtain ⟨hlL, heL⟩ := pyGet_ok hL
              obtain ⟨hlR, heR⟩ := pyGet_ok hR
              rw [heL, heR]
              exact hM

/-- Setting an entry of a list to its current value changes nothing. -/
theorem set_getElem_self_eq {α : Type} :
    ∀ (l : List α) (i : ℕ) (h : i < l.length), l.set i l[i] = l
  | a :: l, 0, _ => by simp
  | a :: l, i + 1, h => by
    rw [List.set_cons_succ, List.getElem_cons_succ,
      set_getElem_self_eq l i (by simp at h; omega)]

/-- `combine` frame and length facts needed for the capacity invariant
(no sortedness assumptions). -/
theorem combine_capinv {self h' : StreamingHistogram}
    (hok : self.combine = .ok h') :
    h'.max_buckets = self.max_buckets ∧ h'.count = self.count ∧
    h'.min = self.min ∧ h'.max = self.max ∧
    h'.buckets.length ≤ self.buckets.length ∧
    (self.buckets.length ≠ 1 →
      h'.buckets.length + 1 = self.buckets.length) ∧
    (Wf self → Wf h') := by
  rcases combine_cases hok with ⟨hlen, rfl⟩ | ⟨idx, hpos, hlt, merged, hlen2, hM, rfl⟩
  · exact ⟨rfl, rfl, rfl, rfl, le_refl _, fun hne => absurd hlen hne, id⟩
  · refine ⟨rfl, rfl, rfl, rfl, ?_, ?_, ?_⟩
    · simp [List.length_eraseIdx, hlt]
    · intro _
      simp [List.length_eraseIdx, hlt]
      omega
    · intro hwf
      rw [Wf] at hwf ⊢
      have hltc : idx < self.centroids.length := by
        rw [hwf, List.length_map]
        exact hlt
      show (self.centroids.eraseIdx idx).set (idx - 1) merged.centroid
        = ((self.buckets.set (idx - 1) merged).eraseIdx idx).map
            HistogramBucket.centroid
      rw [eraseIdx_set_surgery _ _ _ hpos hltc,
        set_eraseIdx_surgery _ _ _ hpos hlt]
      rw [List.map_append, List.map_cons, List.map_take, List.map_drop, hwf]

/-- `combine` preserves the order/positivity invariant. -/
theorem combine_orderinv {self h' : StreamingHistogram}
    (hinv : OrderInv self) (hok : self.combine = .ok h') : OrderInv h' := by
  obtain ⟨hwf, hsort, hnn⟩ := hinv
  rcases combine_cases hok with ⟨hlen, rfl⟩ |
    ⟨idx, hpos, hlt, merged, hlen2, hM, rfl⟩
  · exact ⟨hwf, hsort, hnn⟩
  · have hwf' := (combine_capinv hok).2.2.2.2.2.2 hwf
    have hwfe : self.centroids = self.buckets.map HistogramBucket.centroid :=
      hwf
    have hltc : idx < self.centroids.length := by
      rw [hwfe, List.length_map]
      exact hlt
    refine ⟨hwf', ?_, ?_⟩
    · show ((self.centroids.eraseIdx idx).set (idx - 1)
        merged.centroid).Sorted (· ≤ ·)
      rw [eraseIdx_set_surgery _ _ _ hpos hltc]
      have hgl : self.centroids[idx - 1]
          = (self.buckets.get ⟨idx - 1, by omega⟩).centroid := by
        simp only [hwfe, List.getElem_map, List.get_eq_getElem]
      have hgr : self.centroids[idx]
          = (self.buckets.get ⟨idx, hlt⟩).centroid := by
        simp only [hwfe, List.getElem_map, List.get_eq_getElem]
      have hadj : (self.buckets.get ⟨idx - 1, by omega⟩).centroid
          ≤ (self.buckets.get ⟨idx, hlt⟩).centroid := by
        rw [← hgl, ← hgr]
        exact List.pairwise_iff_getElem.mp hsort _ _ _ _ (by omega)
      have hn1 : 0 ≤ (self.buckets.get ⟨idx - 1, by omega⟩).count :=
        hnn _ (List.get_mem _ _ _)
      have hn2 : 0 ≤ (self.buckets.get ⟨idx, hlt⟩).count :=
        hnn _ (List.get_mem _ _ _)
      obtain ⟨hbl, hbr⟩ := hb_combine_centroid_between hM hn1 hn2 hadj
      refine sorted_surgery hsort hpos hltc ?_ ?_
      · rw [hgl]
        exact hbl
      · rw [hgr]
        exact hbr
    · intro b hb
      show 0 ≤ b.count
      rw [show ({ self with
            buckets := (self.buckets.set (idx - 1) merged).eraseIdx idx,
            centroids := (self.centroids.eraseIdx idx).set (idx - 1)
              merged.centroid } : StreamingHistogram).buckets
          = (self.buckets.set (idx - 1) merged).eraseIdx idx from rfl,
        set_eraseIdx_surgery _ _ _ hpos hlt] at hb
      rcases List.mem_append.mp hb with hb1 | hb2
      · exact hnn _ (List.take_subset _ _ hb1)
      · rcases List.mem_cons.mp hb2 with rfl | hb3
        · obtain ⟨-, hcount, -⟩ := hb_combine_ok hM
          have h1 := hnn _ (List.get_mem self.buckets (idx - 1) (by omega))
          have h2 := hnn _ (List.get_mem self.buckets idx hlt)
          omega
        · exact hnn _ (List.drop_subset _ _ hb3)

/-- Case analysis of `push_bucket`: either the insertion overflowed the
cap and the result is the reduction of the grown histogram, or it did not
and the result is the grown histogram itself. -/
theorem push_bucket_cases {self : StreamingHistogram} {b : HistogramBucket}
    {h' : StreamingHistogram} (hok : self.push_bucket b = .ok h') :
    (((self.grown b).buckets.length : ℤ) > self.max_buckets ∧
      (self.grown b).combine = .ok h') ∨
    (¬ ((self.grown b).buckets.length : ℤ) > self.max_buckets ∧
      h' = self.grown b) := by
  rw [StreamingHistogram.push_bucket] at hok
  dsimp only at hok
  split at hok
  · next hgt => exact Or.inl ⟨hgt, hok⟩
  · next hle =>
    injection hok with hok
    exact Or.inr ⟨hle, hok.symm⟩

/-- The grown intermediate state of `push_bucket` stays well-formed and
has exactly one more bucket. -/
theorem grown_wf {self : StreamingHistogram} {b : HistogramBucket}
    (hwf : Wf self) :
    Wf (self.grown b) ∧
      (self.grown b).buckets.length = self.buckets.length + 1 := by
  have hlen : self.centroids.length = self.buckets.length := by
    rw [hwf, List.length_map]
  have hple : bisect_left self.centroids b.centroid ≤ self.buckets.length :=
    hlen ▸ bisect_left_le_length _ _
  constructor
  · show self.centroids.insertIdx (bisect_left self.centroids b.centroid)
      b.centroid = ((self.grown b).buckets).map HistogramBucket.centroid
    show _ = (self.buckets.insertIdx _ b).map HistogramBucket.centroid
    rw [map_insertIdx_comm, hwf]
  · exact List.length_insertIdx _ _ hple

/-- Frame facts of `grown`. -/
theorem grown_frame (self : StreamingHistogram) (b : HistogramBucket) :
    (self.grown b).max_buckets = self.max_buckets ∧
    (self.grown b).min = self.min ∧ (self.grown b).max = self.max ∧
    (self.grown b).count = self.count + b.count :=
  ⟨rfl, rfl, rfl, rfl⟩

/-- `push_bucket` preserves the capacity invariant. -/
theorem push_bucket_capinv {self : StreamingHistogram}
    {b : HistogramBucket} {h' : StreamingHistogram} (hinv : CapInv self)
    (hok : self.push_bucket b = .ok h') :
    CapInv h' ∧ h'.max_buckets = self.max_buckets := by
  obtain ⟨hwf, hmax1, hcap⟩ := hinv
  obtain ⟨hwf2, hlen2⟩ := grown_wf (b := b) hwf
  rcases push_bucket_cases hok with ⟨hgt, hcomb⟩ | ⟨hle, rfl⟩
  · obtain ⟨hmax', hcount', -, -, hlenle, hlenne, hwfp⟩ :=
      combine_capinv hcomb
    have hmaxg : (self.grown b).max_buckets = self.max_buckets := rfl
    have hne1 : (self.grown b).buckets.length ≠ 1 := by
      rw [hlen2]
      intro hone
      have hz : self.buckets.length = 0 := by omega
      rw [hlen2, hz] at hgt
      simp at hgt
      omega
    have hdec := hlenne hne1
    refine ⟨⟨hwfp hwf2, ?_, ?_⟩, ?_⟩
    · rw [hmax', hmaxg]
      exact hmax1
    · rw [hmax', hmaxg]
      have hl2 : h'.buckets.length = self.buckets.length := by
        rw [hlen2] at hdec
        omega
      rw [hl2]
      exact hcap
    · rw [hmax', hmaxg]
  · refine ⟨⟨hwf2, hmax1, ?_⟩, rfl⟩
    rw [not_lt] at hle
    exact hle

/-- `push_bucket` preserves the order/positivity invariant when the
pushed bucket's count is non-negative. -/
theorem push_bucket_orderinv {self : StreamingHistogram}
    {b : HistogramBucket} {h' : StreamingHistogram} (hinv : OrderInv self)
    (hb : 0 ≤ b.count) (hok : self.push_bucket b = .ok h') :
    OrderInv h' := by
  obtain ⟨hwf, hsort, hnn⟩ := hinv
  obtain ⟨hwf2, hlen2⟩ := grown_wf (b := b) hwf
  have hlen : self.centroids.length = self.buckets.length := by
    rw [hwf, List.length_map]
  have hsort2 : SortedCentroids (self.grown b) :=
    sorted_insert_bisect_left hsort b.centroid
  have hnn2 : NonnegCounts (self.grown b) := by
    intro x hx
    have hple : bisect_left self.centroids b.centroid ≤ self.buckets.length :=
      hlen ▸ bisect_left_le_length _ _
    rcases (List.mem_insertIdx hple).mp hx with rfl | hmem
    · exact hb
    · exact hnn _ hmem
  rcases push_bucket_cases hok with ⟨hgt, hcomb⟩ | ⟨hle, rfl⟩
  · exact combine_orderinv ⟨hwf2, hsort2, hnn2⟩ hcomb
  · exact ⟨hwf2, hsort2, hnn2⟩

/-- Case analysis of `push_value`: either an existing centroid matched
`v` exactly and its count was bumped, or a fresh `(v, 1)` bucket went
through `push_bucket`; in both cases `_min` / `_max` are refreshed last. -/
theorem push_value_cases {self : StreamingHistogram} {v : ℚ}
    {h' : StreamingHistogram} (hok : self.push_value v = .ok h') :
    (∃ s1, self.push_bucket ⟨v, 1⟩ = .ok s1 ∧
      h' = s1.minmaxUpdated v) ∨
    (∃ bfound,
      bisect_left self.centroids v < self.buckets.length ∧
      pyGet self.centroids (bisect_left self.centroids v) = .ok v ∧
      pyGet self.buckets (bisect_left self.centroids v) = .ok bfound ∧
      h' = StreamingHistogram.minmaxUpdated
        { self with
          buckets := self.buckets.set (bisect_left self.centroids v)
            { bfound with count := bfound.count + 1 },
          count := self.count + 1 } v) := by
  rw [StreamingHistogram.push_value] at hok
  dsimp only at hok
  by_cases hplt : bisect_left self.centroids v < self.buckets.length
  · rw [if_pos hplt] at hok
    cases hc : pyGet self.centroids (bisect_left self.centroids v) with
    | error e =>
      rw [hc] at hok
      simp only [error_bind] at hok
      exact absurd hok (by simp)
    | ok c =>
      rw [hc] at hok
      simp only [ok_bind] at hok
      by_cases hcv : c = v
      · rw [if_pos hcv] at hok
        cases hbf : pyGet self.buckets (bisect_left self.centroids v) with
        | error e =>
          rw [hbf] at hok
          simp only [error_bind] at hok
          exact absurd hok (by simp)
        | ok bfound =>
          rw [hbf] at hok
          simp only [ok_bind] at hok
          injection hok with hok
          exact Or.inr ⟨bfound, hplt, by rw [hcv], rfl, hok.symm⟩
      · rw [if_neg hcv] at hok
        cases hpb : self.push_bucket ⟨v, 1⟩ with
        | error e =>
          rw [hpb, error_bind] at hok
          exact absurd hok (by simp)
        | ok s1 =>
          rw [hpb, ok_bind] at hok
          injection hok with hok
          exact Or.inl ⟨s1, rfl, hok.symm⟩
  · rw [if_neg hplt] at hok
    cases hpb : self.push_bucket ⟨v, 1⟩ with
    | error e =>
      rw [hpb, error_bind] at hok
      exact absurd hok (by simp)
    | ok s1 =>
      rw [hpb, ok_bind] at hok
      injection hok with hok
      exact Or.inl ⟨s1, rfl, hok.symm⟩

/-- `push_value` preserves the capacity invariant. -/
theorem push_value_capinv {self : StreamingHistogram} {v : ℚ}
    {h' : StreamingHistogram} (hinv : CapInv self)
    (hok : self.push_value v = .ok h') :
    CapInv h' ∧ h'.max_buckets = self.max_buckets := by
  rcases push_value_cases hok with ⟨s1, hpb, rfl⟩ |
    ⟨bf, hlt, hc, hbf, rfl⟩
  · obtain ⟨hinv', hm⟩ := push_bucket_capinv hinv hpb
    exact ⟨hinv', hm⟩
  · obtain ⟨hwf, h1, hcap⟩ := hinv
    have hwfe : self.centroids = self.buckets.map HistogramBucket.centroid :=
      hwf
    obtain ⟨hltc, hgc⟩ := pyGet_ok hc
    obtain ⟨hltb, hgb⟩ := pyGet_ok hbf
    have hltm : bisect_left self.centroids v
        < (self.buckets.map HistogramBucket.centroid).length := by
      rw [List.length_map]
      exact hltb
    have hval : (self.buckets.map
        HistogramBucket.centroid)[bisect_left self.centroids v]
        = bf.centroid := by
      rw [List.getElem_map, ← hgb]
      simp [List.get_eq_getElem]
    have hbfc2 : (self.buckets.map HistogramBucket.centroid).set
        (bisect_left self.centroids v) bf.centroid
        = self.buckets.map HistogramBucket.centroid := by
      rw [← hval, set_getElem_self_eq]
    refine ⟨⟨?_, h1, ?_⟩, rfl⟩
    · show self.centroids
        = (self.buckets.set (bisect_left self.centroids v)
            { bf with count := bf.count + 1 }).map HistogramBucket.centroid
      rw [List.map_set]
      show self.centroids = (self.buckets.map HistogramBucket.centroid).set
        (bisect_left self.centroids v) bf.centroid
      rw [hbfc2, ← hwfe]
    · show ((self.buckets.set _ _).length : ℤ) ≤ self.max_buckets
      rw [List.length_set]
      exact hcap

/-- `push_value` preserves the order/positivity invariant. -/
theorem push_value_orderinv {self : StreamingHistogram} {v : ℚ}
    {h' : StreamingHistogram} (hinv : OrderInv self)
    (hok : self.push_value v = .ok h') :
    OrderInv h' := by
  rcases push_value_cases hok with ⟨s1, hpb, rfl⟩ |
    ⟨bf, hlt, hc, hbf, rfl⟩
  · have h2 := push_bucket_orderinv hinv (by simp) hpb
    exact h2
  · obtain ⟨hwf, hsort, hnn⟩ := hinv
    have hwfe : self.centroids = self.buckets.map HistogramBucket.centroid :=
      hwf
    obtain ⟨hltc, hgc⟩ := pyGet_ok hc
    obtain ⟨hltb, hgb⟩ := pyGet_ok hbf
    have hltm : bisect_left self.centroids v
        < (self.buckets.map HistogramBucket.centroid).length := by
      rw [List.length_map]
      exact hltb
    have hval : (self.buckets.map
        HistogramBucket.centroid)[bisect_left self.centroids v]
        = bf.centroid := by
      rw [List.getElem_map, ← hgb]
      simp [List.get_eq_getElem]
    have hbfc2 : (self.buckets.map HistogramBucket.centroid).set
        (bisect_left self.centroids v) bf.centroid
        = self.buckets.map HistogramBucket.centroid := by
      rw [← hval, set_getElem_self_eq]
    refine ⟨?_, hsort, ?_⟩
    · show self.centroids
        = (self.buckets.set (bisect_left self.centroids v)
            { bf with count := bf.count + 1 }).map HistogramBucket.centroid
      rw [List.map_set]
      show self.centroids = (self.buckets.map HistogramBucket.centroid).set
        (bisect_left self.centroids v) bf.centroid
      rw [hbfc2, ← hwfe]
    · intro x hx
      rcases List.mem_or_eq_of_mem_set hx with hmem | rfl
      · exact hnn _ hmem
      · have := hnn _ (hgb ▸ List.get_mem self.buckets _ hltb)
        show 0 ≤ bf.count + 1
        omega

/-- Invariant preservation through `List.foldlM` in the `Except` monad. -/
theorem foldlM_except_inv {σ α : Type} (P : σ → Prop)
    (f : σ → α → Except PyErr σ)
    (hf : ∀ s x s', P s → f s x = .ok s' → P s') :
    ∀ (l : List α) (s s' : σ), P s → l.foldlM f s = .ok s' → P s'
  | [], s, s', hs, hok => by
    rw [List.foldlM] at hok
    injection hok with h
    exact h ▸ hs
  | x :: xs, s, s', hs, hok => by
    rw [List.foldlM] at hok
    cases hfx : f s x with
    | error e =>
      rw [hfx, error_bind] at hok
      exact absurd hok (by simp)
    | ok s1 =>
      rw [hfx, ok_bind] at hok
      exact foldlM_except_inv P f hf xs s1 s' (hf s x s1 hs hfx) hok

/-- Invariant preservation through `List.foldlM` in the `Except` monad,
with the step hypothesis restricted to list members. -/
theorem foldlM_except_inv_mem {σ α : Type} (P : σ → Prop)
    (f : σ → α → Except PyErr σ) :
    ∀ (l : List α),
      (∀ s x s', x ∈ l → P s → f s x = .ok s' → P s') →
      ∀ (s s' : σ), P s → l.foldlM f s = .ok s' → P s'
  | [], _, s, s', hs, hok => by
    rw [List.foldlM] at hok
    injection hok with h
    exact h ▸ hs
  | x :: xs, hf, s, s', hs, hok => by
    rw [List.foldlM] at hok
    cases hfx : f s x with
    | error e =>
      rw [hfx, error_bind] at hok
      exact absurd hok (by simp)
    | ok s1 =>
      rw [hfx, ok_bind] at hok
      exact foldlM_except_inv_mem P f xs
        (fun s x s' hx => hf s x s' (List.mem_cons_of_mem _ hx)) s1 s'
        (hf s x s1 (List.mem_cons_self _ _) hs hfx) hok

/-- `push_list` preserves the capacity invariant. -/
theorem push_list_capinv {self : StreamingHistogram} {vs : List ℚ}
    {h' : StreamingHistogram} (hinv : CapInv self)
    (hok : self.push_list vs = .ok h') : CapInv h' :=
  foldlM_except_inv_mem CapInv StreamingHistogram.push_value vs
    (fun _ _ _ _ hs h => (push_value_capinv hs h).1) self h' hinv hok

/-- `push_list` preserves the order/positivity invariant. -/
theorem push_list_orderinv {self : StreamingHistogram} {vs : List ℚ}
    {h' : StreamingHistogram} (hinv : OrderInv self)
    (hok : self.push_list vs = .ok h') : OrderInv h' :=
  foldlM_except_inv_mem OrderInv StreamingHistogram.push_value vs
    (fun _ _ _ _ hs h => push_value_orderinv hs h) self h' hinv hok

/-- One `merge` step (`push_bucket` then the unconditional reduction)
preserves the capacity invariant. -/
theorem push_combine_capinv {s : StreamingHistogram} {b : HistogramBucket}
    {s' : StreamingHistogram} (hinv : CapInv s)
    (hok : (s.push_bucket b >>= StreamingHistogram.combine) = .ok s') :
    CapInv s' := by
  cases hpb : s.push_bucket b with
  | error e =>
    rw [hpb, error_bind] at hok
    exact absurd hok (by simp)
  | ok s1 =>
    rw [hpb, ok_bind] at hok
    obtain ⟨⟨hwf1, hm1, hcap1⟩, hmax1⟩ := push_bucket_capinv hinv hpb
    obtain ⟨hmax2, -, -, -, hlen2, -, hwf2⟩ := combine_capinv hok
    refine ⟨hwf2 hwf1, ?_, ?_⟩
    · rw [hmax2]
      exact hm1
    · rw [hmax2]
      have : (s'.buckets.length : ℤ) ≤ (s1.buckets.length : ℤ) := by
        exact_mod_cast hlen2
      omega

/-- One `merge` step preserves the order/positivity invariant. -/
theorem push_combine_orderinv {s : StreamingHistogram}
    {b : HistogramBucket} {s' : StreamingHistogram} (hinv : OrderInv s)
    (hb : 0 ≤ b.count)
    (hok : (s.push_bucket b >>= StreamingHistogram.combine) = .ok s') :
    OrderInv s' := by
  cases hpb : s.push_bucket b with
  | error e =>
    rw [hpb, error_bind] at hok
    exact absurd hok (by simp)
  | ok s1 =>
    rw [hpb, ok_bind] at hok
    exact combine_orderinv (push_bucket_orderinv hinv hb hpb) hok

/-- `merge` preserves the capacity invariant of the receiver. -/
theorem merge_capinv {self g h' : StreamingHistogram} (hinv : CapInv self)
    (hok : self.merge g = .ok h') : CapInv h' :=
  foldlM_except_inv_mem CapInv
    (fun s b => s.push_bucket b >>= StreamingHistogram.combine) g.buckets
    (fun _ _ _ _ hs h => push_combine_capinv hs h) self h' hinv hok

/-- `merge` preserves the order/positivity invariant of the receiver when
the other histogram's counts are non-negative. -/
theorem merge_orderinv {self g h' : StreamingHistogram}
    (hinv : OrderInv self) (hg : NonnegCounts g)
    (hok : self.merge g = .ok h') : OrderInv h' :=
  foldlM_except_inv_mem OrderInv
    (fun s b => s.push_bucket b >>= StreamingHistogram.combine) g.buckets
    (fun _ b _ hb hs h => push_combine_orderinv hs (hg b hb) h) self h'
    hinv hok

/-- `clone` always returns a histogram within its own (fresh) capacity and
well-formed. -/
theorem clone_capinv {self h' : StreamingHistogram}
    (hok : self.clone = .ok h') : CapInv h' := by
  rw [StreamingHistogram.clone] at hok
  cases hi : StreamingHistogram.init (self.buckets.length : ℤ) with
  | error e =>
    rw [hi, error_bind] at hok
    exact absurd hok (by simp)
  | ok c0 =>
    rw [hi, ok_bind] at hok
    rw [StreamingHistogram.init] at hi
    split at hi
    · exact absurd hi (by simp)
    · next hpos =>
      injection hi with hi
      have hc0 : CapInv c0 := by
        rw [← hi]
        refine ⟨rfl, ?_, ?_⟩
        · show (1 : ℤ) ≤ (self.buckets.length : ℤ)
          omega
        · show (([] : List HistogramBucket).length : ℤ)
            ≤ (self.buckets.length : ℤ)
          simp
      exact foldlM_except_inv_mem CapInv
        (fun s b => s.push_bucket b) self.buckets
        (fun _ _ _ _ hs h => (push_bucket_capinv hs h).1) c0 h' hc0 hok

/-- `clone` of a histogram with non-negative counts keeps the order
invariant. -/
theorem clone_orderinv {self h' : StreamingHistogram}
    (hnn : NonnegCounts self) (hok : self.clone = .ok h') : OrderInv h' := by
  rw [StreamingHistogram.clone] at hok
  cases hi : StreamingHistogram.init (self.buckets.length : ℤ) with
  | error e =>
    rw [hi, error_bind] at hok
    exact absurd hok (by simp)
  | ok c0 =>
    rw [hi, ok_bind] at hok
    rw [StreamingHistogram.init] at hi
    split at hi
    · exact absurd hi (by simp)
    · injection hi with hi
      have hc0 : OrderInv c0 := by
        rw [← hi]
        exact ⟨rfl, List.sorted_nil, by simp [NonnegCounts]⟩
      exact foldlM_except_inv_mem OrderInv
        (fun s b => s.push_bucket b) self.buckets
        (fun _ b _ hb hs h => push_bucket_orderinv hs (hnn b hb) h) c0 h'
        hc0 hok

/-- A finite value compares below `float('inf')`. -/
theorem qi_fin_lt_pinf (x : ℚ) : QI.fin x < QI.pinf := by
  rw [QI.fin, QI.pinf]
  exact_mod_cast WithTop.coe_lt_top x

/-- On a `bucket_ranges` array (`-inf` head, `+inf` last), `bisect_right`
of a finite value is at least 1. -/
theorem bisect_right_ranges_ge (mids : List QI) (x : ℚ) :
    1 ≤ bisect_right (⊥ :: mids ++ [QI.pinf]) (QI.fin x) := by
  have hr : bisectRightLoop (⊥ :: mids ++ [QI.pinf]) (QI.fin x)
      (⊥ :: mids ++ [QI.pinf]).length 0 (⊥ :: mids ++ [QI.pinf]).length
      = bisect_right (⊥ :: mids ++ [QI.pinf]) (QI.fin x) := rfl
  rcases bisectRightLoop_exit_upper _ _ _ _ _ (Nat.zero_le _) (by omega)
      hr with h | h
  · rw [h]
    simp
  · by_contra hc
    have hz : bisect_right (⊥ :: mids ++ [QI.pinf]) (QI.fin x) = 0 := by
      omega
    rw [hz] at h
    have hd : (⊥ :: mids ++ [QI.pinf]).getD 0 (QI.fin x) = ⊥ := rfl
    rw [hd] at h
    exact not_lt_bot h

/-- On a `bucket_ranges` array, `bisect_right` of a finite value is at
most `length - 1` (the `+inf` sentinel is never passed). -/
theorem bisect_right_ranges_le (mids : List QI) (x : ℚ) :
    bisect_right (⊥ :: mids ++ [QI.pinf]) (QI.fin x) ≤ mids.length + 1 := by
  have hlen : (⊥ :: mids ++ [QI.pinf]).length = mids.length + 2 := by
    simp
  have hub : bisect_right (⊥ :: mids ++ [QI.pinf]) (QI.fin x)
      ≤ mids.length + 2 := by
    have h0 : bisect_right (⊥ :: mids ++ [QI.pinf]) (QI.fin x)
        ≤ (⊥ :: mids ++ [QI.pinf]).length :=
      bisectRightLoop_le _ _ _ _ _ (Nat.zero_le _)
    omega
  rcases Nat.lt_or_ge (bisect_right (⊥ :: mids ++ [QI.pinf]) (QI.fin x))
      (mids.length + 2) with h | h
  · omega
  · exfalso
    have heq : bisect_right (⊥ :: mids ++ [QI.pinf]) (QI.fin x)
        = mids.length + 2 := by omega
    have hr : bisectRightLoop (⊥ :: mids ++ [QI.pinf]) (QI.fin x)
        (⊥ :: mids ++ [QI.pinf]).length 0 (⊥ :: mids ++ [QI.pinf]).length
        = bisect_right (⊥ :: mids ++ [QI.pinf]) (QI.fin x) := rfl
    rcases bisectRightLoop_exit_lower _ _ _ _ _ hr with h1 | h1
    · omega
    · rw [heq] at h1
      have hd : (⊥ :: mids ++ [QI.pinf]).getD (mids.length + 2 - 1)
          (QI.fin x) = QI.pinf := by
        show (⊥ :: mids ++ [QI.pinf]).getD (mids.length + 1) _ = QI.pinf
        rw [List.cons_append, List.getD_cons_succ]
        rw [List.getD_eq_getElem _ _ (by simp)]
        exact List.getElem_concat_length _ _ _ rfl _
      rw [hd] at h1
      exact h1 (qi_fin_lt_pinf x)

/-- Bumping the count of entry `j` of a bucket list: the centroid
sequence is unchanged, and non-negative counts stay non-negative. -/
theorem bump_facts {new : List HistogramBucket} {j : ℕ} {t : HistogramBucket}
    (hj : j < new.length) (ht : new.get ⟨j, hj⟩ = t) (d : ℤ) :
    ((new.set j { t with count := t.count + d }).map
        HistogramBucket.centroid = new.map HistogramBucket.centroid) ∧
    ((∀ x ∈ new, 0 ≤ x.count) → 0 ≤ d →
      ∀ x ∈ new.set j { t with count := t.count + d }, 0 ≤ x.count) := by
  constructor
  · rw [List.map_set]
    show (new.map HistogramBucket.centroid).set j t.centroid = _
    have hjm : j < (new.map HistogramBucket.centroid).length := by
      rw [List.length_map]
      exact hj
    have : (new.map HistogramBucket.centroid)[j] = t.centroid := by
      rw [List.getElem_map, ← ht]
      simp [List.get_eq_getElem]
    rw [← this, set_getElem_self_eq]
  · intro hnn hd x hx
    rcases List.mem_or_eq_of_mem_set hx with hmem | rfl
    · exact hnn _ hmem
    · have := hnn t (ht ▸ List.get_mem new j hj)
      show 0 ≤ t.count + d
      omega

/-- The redistribution loop of `reshape` succeeds whenever the target
bucket list is non-empty and the `bisect_right` results stay in range;
it preserves the centroid sequence and non-negativity of counts. -/
theorem reshapeLoop_ok (ranges : List QI)
    (h1 : ∀ x : ℚ, 1 ≤ bisect_right ranges (QI.fin x)) :
    ∀ (bs new : List HistogramBucket), new ≠ [] →
      (∀ x : ℚ, bisect_right ranges (QI.fin x) ≤ new.length + 1) →
      ∃ out, StreamingHistogram.reshapeLoop ranges new bs = .ok out ∧
        out.map HistogramBucket.centroid
          = new.map HistogramBucket.centroid ∧
        ((∀ x ∈ new, 0 ≤ x.count) → (∀ y ∈ bs, 0 ≤ y.count) →
          ∀ x ∈ out, 0 ≤ x.count)
  | [], new, hne, h2 => ⟨new, rfl, rfl, fun hn _ => hn⟩
  | b :: rest, new, hne, h2 => by
    have hlenpos : 0 < new.length := List.length_pos.mpr hne
    rw [StreamingHistogram.reshapeLoop]
    dsimp only
    by_cases h0 : bisect_right ranges (QI.fin b.centroid) - 1 = 0
    · rw [if_pos h0, pyGet_of_lt hlenpos]
      simp only [ok_bind]
      obtain ⟨hmapeq, hcnt⟩ := bump_facts hlenpos rfl b.count
      have hlen1 : (new.set 0 { new.get ⟨0, hlenpos⟩ with
          count := (new.get ⟨0, hlenpos⟩).count + b.count }).length
          = new.length := by simp
      obtain ⟨out, hout, hmap, hc⟩ := reshapeLoop_ok ranges h1 rest
        (new.set 0 { new.get ⟨0, hlenpos⟩ with
          count := (new.get ⟨0, hlenpos⟩).count + b.count })
        (by rw [← List.length_pos, hlen1]; exact hlenpos)
        (fun x => by rw [hlen1]; exact h2 x)
      refine ⟨out, hout, hmap.trans hmapeq, fun hn hb => ?_⟩
      exact hc (hcnt hn (hb b (List.mem_cons_self _ _)))
        (fun y hy => hb y (List.mem_cons_of_mem _ hy))
    · by_cases hN : bisect_right ranges (QI.fin b.centroid) - 1 = new.length
      · rw [if_neg h0, if_pos hN]
        have hlast : new.length - 1 < new.length := by omega
        rw [pyGet_of_lt hlast]
        simp only [ok_bind]
        obtain ⟨hmapeq, hcnt⟩ := bump_facts hlast rfl b.count
        have hlen1 : (new.set (new.length - 1)
            { new.get ⟨new.length - 1, hlast⟩ with
              count := (new.get ⟨new.length - 1, hlast⟩).count + b.count
            }).length = new.length := by simp
        obtain ⟨out, hout, hmap, hc⟩ := reshapeLoop_ok ranges h1 rest
          (new.set (new.length - 1)
            { new.get ⟨new.length - 1, hlast⟩ with
              count := (new.get ⟨new.length - 1, hlast⟩).count + b.count })
          (by rw [← List.length_pos, hlen1]; exact hlenpos)
          (fun x => by rw [hlen1]; exact h2 x)
        refine ⟨out, hout, hmap.trans hmapeq, fun hn hb => ?_⟩
        exact hc (hcnt hn (hb b (List.mem_cons_self _ _)))
          (fun y hy => hb y (List.mem_cons_of_mem _ hy))
      · rw [if_neg h0, if_neg hN]
        have hidx : bisect_right ranges (QI.fin b.centroid) - 1
            < new.length := by
          have := h2 b.centroid
          omega
        have hidxp : 1 ≤ bisect_right ranges (QI.fin b.centroid) - 1 := by
          omega
        have hprev : bisect_right ranges (QI.fin b.centroid) - 1 - 1
            < new.length := by omega
        rw [pyGet_of_lt hprev]
        simp only [ok_bind]
        rw [pyGet_of_lt hidx]
        simp only [ok_bind]
        by_cases habs : |b.centroid -
            (new.get ⟨bisect_right ranges (QI.fin b.centroid) - 1 - 1,
              hprev⟩).centroid| <
            |(new.get ⟨bisect_right ranges (QI.fin b.centroid) - 1,
              hidx⟩).centroid - b.centroid|
        · rw [if_pos habs]
          obtain ⟨hmapeq, hcnt⟩ := bump_facts hprev rfl b.count
          have hlen1 : (new.set
              (bisect_right ranges (QI.fin b.centroid) - 1 - 1)
              { new.get ⟨_, hprev⟩ with
                count := (new.get ⟨_, hprev⟩).count + b.count }).length
              = new.length := by simp
          obtain ⟨out, hout, hmap, hc⟩ := reshapeLoop_ok ranges h1 rest
            (new.set (bisect_right ranges (QI.fin b.centroid) - 1 - 1)
              { new.get ⟨_, hprev⟩ with
                count := (new.get ⟨_, hprev⟩).count + b.count })
            (by rw [← List.length_pos, hlen1]; exact hlenpos)
            (fun x => by rw [hlen1]; exact h2 x)
          refine ⟨out, hout, hmap.trans hmapeq, fun hn hb => ?_⟩
          exact hc (hcnt hn (hb b (List.mem_cons_self _ _)))
            (fun y hy => hb y (List.mem_cons_of_mem _ hy))
        · rw [if_neg habs]
          obtain ⟨hmapeq, hcnt⟩ := bump_facts hidx rfl b.count
          have hlen1 : (new.set (bisect_right ranges (QI.fin b.centroid) - 1)
              { new.get ⟨_, hidx⟩ with
                count := (new.get ⟨_, hidx⟩).count + b.count }).length
              = new.length := by simp
          obtain ⟨out, hout, hmap, hc⟩ := reshapeLoop_ok ranges h1 rest
            (new.set (bisect_right ranges (QI.fin b.centroid) - 1)
              { new.get ⟨_, hidx⟩ with
                count := (new.get ⟨_, hidx⟩).count + b.count })
            (by rw [← List.length_pos, hlen1]; exact hlenpos)
            (fun x => by rw [hlen1]; exact h2 x)
          refine ⟨out, hout, hmap.trans hmapeq, fun hn hb => ?_⟩
          exact hc (hcnt hn (hb b (List.mem_cons_self _ _)))
            (fun y hy => hb y (List.mem_cons_of_mem _ hy))

/-- Successful `reshape` against a non-empty reference: the receiver gets
the reference's centroid layout (with redistributed counts), its length
becomes the reference's bucket count, and `_count` / `_min` / `_max` /
`max_buckets` keep their pre-call values. -/
theorem reshape_ok {self input_histogram : StreamingHistogram}
    (hne : input_histogram.buckets ≠ []) :
    ∃ h', self.reshape input_histogram = .ok h' ∧
      h'.buckets.map HistogramBucket.centroid
        = input_histogram.buckets.map HistogramBucket.centroid ∧
      h'.buckets.length = input_histogram.buckets.length ∧
      h'.centroids = h'.buckets.map HistogramBucket.centroid ∧
      h'.max_buckets = self.max_buckets ∧ h'.min = self.min ∧
      h'.max = self.max ∧ h'.count = self.count ∧
      (NonnegCounts self → ∀ x ∈ h'.buckets, 0 ≤ x.count) := by
  rw [StreamingHistogram.reshape]
  have hmapne : input_histogram.buckets.map
      (fun bucket => (⟨bucket.centroid, 0⟩ : HistogramBucket)) ≠ [] := by
    intro hc
    exact hne (List.map_eq_nil.mp hc)
  have hlennew : (input_histogram.buckets.map
      (fun bucket => (⟨bucket.centroid, 0⟩ : HistogramBucket))).length
      = input_histogram.buckets.length := List.length_map _ _
  have hlenmid : (input_histogram.buckets.map
      (fun bucket => QI.fin bucket.centroid)).length
      = input_histogram.buckets.length := List.length_map _ _
  obtain ⟨out, hout, hmap, hcnt⟩ := reshapeLoop_ok
    (⊥ :: input_histogram.buckets.map (fun bucket => QI.fin bucket.centroid)
      ++ [QI.pinf])
    (fun x => bisect_right_ranges_ge _ x)
    self.buckets
    (input_histogram.buckets.map
      (fun bucket => (⟨bucket.centroid, 0⟩ : HistogramBucket)))
    hmapne
    (fun x => by
      rw [hlennew, ← hlenmid]
      exact bisect_right_ranges_le _ x)
  rw [hout]
  simp only [ok_bind]
  have hmapc : out.map HistogramBucket.centroid
      = input_histogram.buckets.map HistogramBucket.centroid := by
    rw [hmap, List.map_map]
    rfl
  refine ⟨_, rfl, hmapc, ?_, rfl, rfl, rfl, rfl, rfl, ?_⟩
  · have := congrArg List.length hmapc
    simpa using this
  · intro hnn x hx
    refine hcnt (fun y hy => ?_) hnn x hx
    obtain ⟨z, hz, rfl⟩ := List.mem_map.mp hy
    exact le_refl 0

/-- `reshape` against an empty reference with a non-empty receiver hits
`new_buckets[0]` on an empty list: `IndexError`, not a deliberate
invalid-argument rejection. -/
theorem reshape_err {self input_histogram : StreamingHistogram}
    (hinp : input_histogram.buckets = []) (hself : self.buckets ≠ []) :
    self.reshape input_histogram = .error .indexError := by
  rw [StreamingHistogram.reshape]
  rw [hinp]
  obtain ⟨b, rest, hb⟩ := List.exists_cons_of_ne_nil hself
  rw [hb]
  simp only [List.map_nil, List.singleton_append]
  rw [StreamingHistogram.reshapeLoop]
  dsimp only
  have hbr : bisect_right [(⊥ : QI), QI.pinf] (QI.fin b.centroid) = 1 := by
    have hlt : QI.fin b.centroid < QI.pinf := qi_fin_lt_pinf b.centroid
    have hnb : ¬ QI.fin b.centroid < (⊥ : QI) := not_lt_bot
    simp [bisect_right, bisectRightLoop, hlt, hnb]
  rw [hbr]
  simp [pyGet, error_bind]

/-- `reshape` against an empty reference with an empty receiver silently
succeeds, leaving an empty bucket list. -/
theorem reshape_empty_empty {self input_histogram : StreamingHistogram}
    (hinp : input_histogram.buckets = []) (hself : self.buckets = []) :
    self.reshape input_histogram
      = .ok { self with buckets := [], centroids := [] } := by
  rw [StreamingHistogram.reshape]
  rw [hinp, hself]
  simp only [List.map_nil, List.singleton_append]
  rw [StreamingHistogram.reshapeLoop]
  simp only [ok_bind]
  rfl

/-- C3 (counterexample): `reshape` does not respect `max_buckets`.  A
receiver with `max_buckets = 1` reshaped onto a two-bucket reference ends
up holding two buckets, so "len(buckets) ≤ max_buckets after every public
operation returns" is false as stated. -/
theorem C3_reshape_overflow_counterexample :
    StreamingHistogram.reshape
        ⟨1, [⟨10, 1⟩], [10], QI.fin 10, QI.fin 10, 1⟩
        ⟨5, [⟨1, 1⟩, ⟨2, 1⟩], [1, 2], QI.fin 1, QI.fin 2, 2⟩
      = .ok ⟨1, [⟨1, 0⟩, ⟨2, 1⟩], [1, 2], QI.fin 10, QI.fin 10, 1⟩ ∧
    ¬ (((([⟨1, 0⟩, ⟨2, 1⟩] : List HistogramBucket)).length : ℤ) ≤ 1) := by
  decide

/-- C3 (amended): the capacity bound `len(buckets) ≤ max_buckets` (packaged
with well-formedness as `CapInv`) is established by construction and
preserved by `push_value`, `push_list`, `push_bucket`, `merge`, and
`clone` (the clone against its own fresh cap); `reshape`, however, sets
the bucket count to the reference's bucket count, which can exceed
`max_buckets` (see the counterexample). -/
theorem C3_capacity_amended :
    (∀ (m : ℤ) (h : StreamingHistogram),
      StreamingHistogram.init m = .ok h → CapInv h) ∧
    (∀ (self : StreamingHistogram) (v : ℚ) (h' : StreamingHistogram),
      CapInv self → self.push_value v = .ok h' → CapInv h') ∧
    (∀ (self : StreamingHistogram) (vs : List ℚ)
      (h' : StreamingHistogram),
      CapInv self → self.push_list vs = .ok h' → CapInv h') ∧
    (∀ (self : StreamingHistogram) (b : HistogramBucket)
      (h' : StreamingHistogram),
      CapInv self → self.push_bucket b = .ok h' → CapInv h') ∧
    (∀ (self g h' : StreamingHistogram),
      CapInv self → self.merge g = .ok h' → CapInv h') ∧
    (∀ (self h' : StreamingHistogram),
      self.clone = .ok h' → CapInv h') ∧
    (∀ (self g h' : StreamingHistogram), self.reshape g = .ok h' →
      h'.buckets.length = g.buckets.length) := by
  refine ⟨?_, ?_, ?_, ?_, ?_, ?_, ?_⟩
  · intro m h hok
    rw [StreamingHistogram.init] at hok
    split at hok
    · exact absurd hok (by simp)
    · next hpos =>
      injection hok with hok
      rw [← hok]
      refine ⟨rfl, ?_, ?_⟩
      · show (1 : ℤ) ≤ m
        omega
      · show (([] : List HistogramBucket).length : ℤ) ≤ m
        simp
        omega
  · exact fun self v h' hinv hok => (push_value_capinv hinv hok).1
  · exact fun self vs h' hinv hok => push_list_capinv hinv hok
  · exact fun self b h' hinv hok => (push_bucket_capinv hinv hok).1
  · exact fun self g h' hinv hok => merge_capinv hinv hok
  · exact fun self h' hok => clone_capinv hok
  · intro self g h' hok
    by_cases hg : g.buckets = []
    · by_cases hs : self.buckets = []
      · rw [reshape_empty_empty hg hs] at hok
        injection hok with hok
        rw [← hok, hg]
      · rw [reshape_err hg hs] at hok
        exact absurd hok (by simp)
    · obtain ⟨h'', hok', -, hlen, -⟩ := @reshape_ok self _ hg
      rw [hok'] at hok
      injection hok with hok
      rw [← hok]
      exact hlen

/-- C3 (witness): the `push_value` clause of the amended theorem applied
to a fresh one-bucket histogram receiving the value 5. -/
theorem C3_capacity_witness :
    CapInv ⟨1, [⟨5, 1⟩], [5], QI.fin 5, QI.fin 5, 1⟩ :=
  C3_capacity_amended.2.1 ⟨1, [], [], QI.pinf, ⊥, 0⟩ 5
    ⟨1, [⟨5, 1⟩], [5], QI.fin 5, QI.fin 5, 1⟩
    (by decide) (by decide)

/-- C4 (counterexample): `push_bucket` with a centroid equal to an
existing bucket's, while the capacity is not exceeded, leaves a duplicate
centroid in place after the operation has returned — the bucket sequence
is then NOT strictly ascending. -/
theorem C4_duplicate_counterexample :
    ((StreamingHistogram.init 5).bind
        (fun h => h.push_bucket ⟨1, 1⟩)).bind
        (fun h => h.push_bucket ⟨1, 1⟩)
      = .ok ⟨5, [⟨1, 1⟩, ⟨1, 1⟩], [1, 1], QI.pinf, ⊥, 2⟩ ∧
    ¬ List.Chain' (· < ·)
      (([⟨1, 1⟩, ⟨1, 1⟩] : List HistogramBucket).map
        HistogramBucket.centroid) := by
  refine ⟨by decide, by simp [List.chain'_cons]⟩

/-- C4 (amended): at every externally observable point the bucket
sequence is ascending by centroid only NON-strictly.  The invariant
`OrderInv` (centroid cache sorted with `≤`, counts non-negative,
well-formed) is established by construction and preserved by
`push_value`, `push_list`, `push_bucket` (non-negative pushed count),
`merge` (other's counts non-negative), `clone`, and `reshape` (reference
centroids sorted); duplicate centroids can remain after `push_bucket`
(see the counterexample), so strict ascent does not hold. -/
theorem C4_order_amended :
    (∀ (m : ℤ) (h : StreamingHistogram),
      StreamingHistogram.init m = .ok h → OrderInv h) ∧
    (∀ (self : StreamingHistogram) (v : ℚ) (h' : StreamingHistogram),
      OrderInv self → self.push_value v = .ok h' → OrderInv h') ∧
    (∀ (self : StreamingHistogram) (vs : List ℚ)
      (h' : StreamingHistogram),
      OrderInv self → self.push_list vs = .ok h' → OrderInv h') ∧
    (∀ (self : StreamingHistogram) (b : HistogramBucket)
      (h' : StreamingHistogram),
      OrderInv self → 0 ≤ b.count → self.push_bucket b = .ok h' →
        OrderInv h') ∧
    (∀ (self g h' : StreamingHistogram),
      OrderInv self → NonnegCounts g → self.merge g = .ok h' →
        OrderInv h') ∧
    (∀ (self h' : StreamingHistogram),
      NonnegCounts self → self.clone = .ok h' → OrderInv h') ∧
    (∀ (self g h' : StreamingHistogram),
      (g.buckets.map HistogramBucket.centroid).Sorted (· ≤ ·) →
      NonnegCounts self → self.reshape g = .ok h' → OrderInv h') := by
  refine ⟨?_, ?_, ?_, ?_, ?_, ?_, ?_⟩
  · intro m h hok
    rw [StreamingHistogram.init] at hok
    split at hok
    · exact absurd hok (by simp)
    · injection hok with hok
      rw [← hok]
      exact ⟨rfl, List.sorted_nil, by simp [NonnegCounts]⟩
  · exact fun self v h' hinv hok => push_value_orderinv hinv hok
  · exact fun self vs h' hinv hok => push_list_orderinv hinv hok
  · exact fun self b h' hinv hb hok => push_bucket_orderinv hinv hb hok
  · exact fun self g h' hinv hg hok => merge_orderinv hinv hg hok
  · exact fun self h' hnn hok => clone_orderinv hnn hok
  · intro self g h' hsort hnn hok
    by_cases hg : g.buckets = []
    · by_cases hs : self.buckets = []
      · rw [reshape_empty_empty hg hs] at hok
        injection hok with hok
        rw [← hok]
        exact ⟨rfl, List.sorted_nil, by simp [NonnegCounts]⟩
      · rw [reshape_err hg hs] at hok
        exact absurd hok (by simp)
    · obtain ⟨h'', hok', hmapc, hlen, hwf, -, -, -, -, hcnt⟩ :=
        @reshape_ok self _ hg
      rw [hok'] at hok
      injection hok with hok
      rw [← hok]
      refine ⟨hwf, ?_, fun x hx => hcnt hnn x hx⟩
      show h''.centroids.Sorted (· ≤ ·)
      rw [hwf, hmapc]
      exact hsort

/-- C4 (witness): the `push_bucket` clause of the amended theorem applied
to a one-bucket histogram receiving an equal-centroid bucket — the
resulting duplicate state satisfies the (non-strict) invariant. -/
theorem C4_order_witness :
    OrderInv ⟨5, [⟨1, 1⟩, ⟨1, 1⟩], [1, 1], QI.pinf, ⊥, 2⟩ :=
  C4_order_amended.2.2.2.1 ⟨5, [⟨1, 1⟩], [1], QI.pinf, ⊥, 1⟩ ⟨1, 1⟩
    ⟨5, [⟨1, 1⟩, ⟨1, 1⟩], [1, 1], QI.pinf, ⊥, 2⟩
    (by decide) (by decide) (by decide)

/-- `cmLoop` cannot fail when the input list is long enough. -/
theorem cmLoop_ok (input : List HistogramBucket) :
    ∀ (bs : List HistogramBucket) (index : ℕ),
      index + bs.length ≤ input.length →
      ∃ bb, StreamingHistogram.cmLoop input bs index = .ok bb
  | [], _, _ => ⟨true, rfl⟩
  | b :: rest, index, hle => by
    rw [StreamingHistogram.cmLoop]
    have hlt : index < input.length := by
      simp at hle
      omega
    rw [pyGet_of_lt hlt]
    simp only [ok_bind]
    by_cases hne : b.centroid ≠ (input.get ⟨index, hlt⟩).centroid
    · rw [if_pos hne]
      exact ⟨false, rfl⟩
    · rw [if_neg hne]
      exact cmLoop_ok input rest (index + 1) (by simp at hle; omega)

/-- Pushing buckets one by one never overflows while the total stays
within the cap, so the fold succeeds and just grows the list. -/
theorem fold_push_bucket_ok :
    ∀ (l : List HistogramBucket) (c : StreamingHistogram), Wf c →
      ((c.buckets.length + l.length : ℕ) : ℤ) ≤ c.max_buckets →
      ∃ c', l.foldlM (fun s b => s.push_bucket b) c = .ok c' ∧
        c'.buckets.length = c.buckets.length + l.length ∧ Wf c' ∧
        c'.max_buckets = c.max_buckets
  | [], c, hwf, hle => ⟨c, rfl, by simp, hwf, rfl⟩
  | b :: rest, c, hwf, hle => by
    obtain ⟨hwf2, hlen2⟩ := grown_wf (b := b) hwf
    have hpb : c.push_bucket b = .ok (c.grown b) := by
      rw [StreamingHistogram.push_bucket]
      dsimp only
      rw [if_neg]
      · rfl
      · show ¬ ((c.grown b).buckets.length : ℤ) > c.max_buckets
        rw [hlen2]
        simp at hle
        push_cast
        omega
    rw [List.foldlM, hpb]
    simp only [ok_bind]
    obtain ⟨c', hfold, hlen', hwf', hmax'⟩ := fold_push_bucket_ok rest
      (c.grown b) hwf2
      (by
        rw [hlen2]
        show ((c.buckets.length + 1 + rest.length : ℕ) : ℤ) ≤ c.max_buckets
        simp at hle ⊢
        omega)
    refine ⟨c', hfold, ?_, hwf', hmax'⟩
    rw [hlen', hlen2]
    simp
    omega

/-- `clone` of a non-empty histogram succeeds: the fresh cap equals the
bucket count, so no reduction ever fires during the copy. -/
theorem clone_ok {self : StreamingHistogram} (hne : self.buckets ≠ []) :
    ∃ cl, self.clone = .ok cl ∧
      cl.buckets.length = self.buckets.length ∧ Wf cl ∧
      cl.max_buckets = (self.buckets.length : ℤ) := by
  have hpos : 0 < self.buckets.length := List.length_pos.mpr hne
  rw [StreamingHistogram.clone]
  have hinit : StreamingHistogram.init (self.buckets.length : ℤ)
      = .ok ⟨(self.buckets.length : ℤ), [], [], QI.pinf, ⊥, 0⟩ := by
    rw [StreamingHistogram.init, if_neg]
    omega
  rw [hinit]
  simp only [ok_bind]
  obtain ⟨c', hfold, hlen', hwf', hmax'⟩ := fold_push_bucket_ok self.buckets
    ⟨(self.buckets.length : ℤ), [], [], QI.pinf, ⊥, 0⟩ rfl (by simp)
  exact ⟨c', hfold, by simpa using hlen', hwf', hmax'⟩

/-- C5 (counterexample): reshaping an empty histogram onto an empty
reference silently succeeds (it is not rejected with any error, let alone
a `ValueError`), contradicting the claim that the call must fail
deliberately rather than silently succeed. -/
theorem C5_empty_reshape_counterexample :
    StreamingHistogram.reshape ⟨1, [], [], QI.pinf, ⊥, 0⟩
        ⟨1, [], [], QI.pinf, ⊥, 0⟩
      = .ok ⟨1, [], [], QI.pinf, ⊥, 0⟩ ∧
    StreamingHistogram.reshape ⟨1, [], [], QI.pinf, ⊥, 0⟩
        ⟨1, [], [], QI.pinf, ⊥, 0⟩
      ≠ .error PyErr.valueError := by
  decide

/-- C5 (amended): `reshape` against a zero-bucket reference is not an
explicit invalid-argument rejection: with a non-empty receiver it fails
with the out-of-range `IndexError` produced by `new_buckets[0]`, and
with an empty receiver it silently succeeds, leaving an empty bucket
list. -/
theorem C5_empty_reference_amended (self input_histogram : StreamingHistogram)
    (hinp : input_histogram.buckets = []) :
    (self.buckets ≠ [] →
      self.reshape input_histogram = .error PyErr.indexError) ∧
    (self.buckets = [] →
      self.reshape input_histogram
        = .ok { self with buckets := [], centroids := [] }) :=
  ⟨fun hs => reshape_err hinp hs, fun hs => reshape_empty_empty hinp hs⟩

/-- C5 (witness): the amended theorem at a one-bucket receiver and an
empty reference. -/
theorem C5_empty_reference_witness :
    StreamingHistogram.reshape ⟨2, [⟨3, 1⟩], [3], QI.fin 3, QI.fin 3, 1⟩
        ⟨1, [], [], QI.pinf, ⊥, 0⟩ = .error PyErr.indexError :=
  (C5_empty_reference_amended ⟨2, [⟨3, 1⟩], [3], QI.fin 3, QI.fin 3, 1⟩
    ⟨1, [], [], QI.pinf, ⊥, 0⟩ rfl).1 (by decide)

/-- The PSI accumulation loop raises `ZeroDivisionError` on its first
iteration when the reference total is zero. -/
theorem psiLoop_zero_ref (log : ℚ → ℚ) (tc : ℤ)
    (p : HistogramBucket × HistogramBucket)
    (rest : List (HistogramBucket × HistogramBucket)) (acc : ℚ) :
    StreamingHistogram.psiLoop log 0 tc (p :: rest) acc
      = .error PyErr.zeroDivisionError := by
  obtain ⟨rb, cb⟩ := p
  rw [StreamingHistogram.psiLoop]
  rw [if_pos (by norm_num)]
  rfl

/-- C6 (counterexample): comparing two empty histograms with
`compare_using_psi` returns the numeric result 0 — no division-by-zero is
signalled, because the aligned-bucket loop never runs. -/
theorem C6_empty_psi_counterexample :
    StreamingHistogram.compare_using_psi (fun _ => 0)
        ⟨1, [], [], QI.pinf, ⊥, 0⟩ ⟨1, [], [], QI.pinf, ⊥, 0⟩
      = .ok 0 := by
  decide

/-- C6 (amended): when both operands are empty, `compare_using_psi`
returns 0 rather than signalling; a `ZeroDivisionError` is signalled when
both operands are non-empty and the receiver's total count is zero (the
first aligned pair's `count / float(total)` divides by zero).  This holds
for every model of `np.log`. -/
theorem C6_psi_zero_total_amended (log : ℚ → ℚ)
    (A B : StreamingHistogram) :
    (A.buckets = [] → B.buckets = [] →
      StreamingHistogram.compare_using_psi log A B = .ok 0) ∧
    (A.buckets ≠ [] → B.buckets ≠ [] → A.count = 0 →
      StreamingHistogram.compare_using_psi log A B
        = .error PyErr.zeroDivisionError) := by
  constructor
  · intro hA hB
    have hcm : A.centroids_matching B = .ok true := by
      rw [StreamingHistogram.centroids_matching, hA]
      rfl
    rw [StreamingHistogram.compare_using_psi]
    rw [if_neg (by rw [hA, hB]; simp)]
    rw [hcm]
    simp only [ok_bind, Bool.not_true]
    rw [if_neg (by simp)]
    show StreamingHistogram.psiLoop log A.get_total_count
      B.get_total_count (A.buckets.zip B.buckets) 0 = .ok 0
    rw [hA]
    rfl
  · intro hA hB hc0
    obtain ⟨a0, arest, hA'⟩ := List.exists_cons_of_ne_nil hA
    rw [StreamingHistogram.compare_using_psi]
    by_cases hlen : A.buckets.length ≠ B.buckets.length
    · rw [if_pos hlen]
      simp only [ok_bind]
      rw [if_pos trivial]
      obtain ⟨cl, hcl, hcllen, -, -⟩ := clone_ok hB
      rw [hcl]
      simp only [ok_bind]
      obtain ⟨cp, hcp, -, hcplen, -, -, -, -, -, -⟩ :=
        @reshape_ok cl _ hA
      rw [hcp]
      simp only [ok_bind]
      have hcpne : cp.buckets ≠ [] := by
        rw [← List.length_pos, hcplen, hA']
        simp
      obtain ⟨cp0, cprest, hcp'⟩ := List.exists_cons_of_ne_nil hcpne
      show StreamingHistogram.psiLoop log A.get_total_count
        cp.get_total_count (A.buckets.zip cp.buckets) 0
        = .error PyErr.zeroDivisionError
      rw [hA', hcp', List.zip_cons_cons,
        show A.get_total_count = A.count from rfl, hc0]
      exact psiLoop_zero_ref _ _ _ _ _
    · rw [if_neg hlen]
      rw [not_ne_iff] at hlen
      obtain ⟨bb, hbb⟩ := cmLoop_ok B.buckets A.buckets 0 (by omega)
      rw [show A.centroids_matching B
        = StreamingHistogram.cmLoop B.buckets A.buckets 0 from rfl, hbb]
      simp only [ok_bind]
      cases bb with
      | true =>
        simp only [Bool.not_true]
        rw [if_neg (by simp)]
        have hBne : B.buckets ≠ [] := hB
        obtain ⟨b0, brest, hB'⟩ := List.exists_cons_of_ne_nil hBne
        show StreamingHistogram.psiLoop log A.get_total_count
          B.get_total_count (A.buckets.zip B.buckets) 0
          = .error PyErr.zeroDivisionError
        rw [hA', hB', List.zip_cons_cons,
          show A.get_total_count = A.count from rfl, hc0]
        exact psiLoop_zero_ref _ _ _ _ _
      | false =>
        simp only [Bool.not_false]
        rw [if_pos trivial]
        obtain ⟨cl, hcl, hcllen, -, -⟩ := clone_ok hB
        rw [hcl]
        simp only [ok_bind]
        obtain ⟨cp, hcp, -, hcplen, -, -, -, -, -, -⟩ :=
          @reshape_ok cl _ hA
        rw [hcp]
        simp only [ok_bind]
        have hcpne : cp.buckets ≠ [] := by
          rw [← List.length_pos, hcplen, hA']
          simp
        obtain ⟨cp0, cprest, hcp'⟩ := List.exists_cons_of_ne_nil hcpne
        show StreamingHistogram.psiLoop log A.get_total_count
          cp.get_total_count (A.buckets.zip cp.buckets) 0
          = .error PyErr.zeroDivisionError
        rw [hA', hcp', List.zip_cons_cons,
          show A.get_total_count = A.count from rfl, hc0]
        exact psiLoop_zero_ref _ _ _ _ _

/-- C6 (witness): the amended theorem's division-by-zero clause at a
concrete pair — a receiver holding one zero-count bucket (total count 0)
against a one-bucket histogram. -/
theorem C6_psi_witness :
    StreamingHistogram.compare_using_psi (fun _ => 0)
        ⟨1, [⟨1, 0⟩], [1], QI.pinf, ⊥, 0⟩
        ⟨1, [⟨2, 1⟩], [2], QI.fin 2, QI.fin 2, 1⟩
      = .error PyErr.zeroDivisionError :=
  (C6_psi_zero_total_amended (fun _ => 0)
    ⟨1, [⟨1, 0⟩], [1], QI.pinf, ⊥, 0⟩
    ⟨1, [⟨2, 1⟩], [2], QI.fin 2, QI.fin 2, 1⟩).2
    (by decide) (by decide) (by decide)

/-- Forward direction of `insertIdx` membership, with no bound on the
index (an out-of-range `insertIdx` is the identity). -/
theorem mem_of_mem_insertIdx {α : Type} {a b : α} :
    ∀ {n : ℕ} {l : List α}, a ∈ l.insertIdx n b → a = b ∨ a ∈ l
  | 0, l, h => by
    rw [List.insertIdx_zero] at h
    exact List.mem_cons.mp h
  | n + 1, [], h => by
    simp [List.insertIdx] at h
  | n + 1, c :: t, h => by
    rw [List.insertIdx_succ_cons] at h
    rcases List.mem_cons.mp h with h | h
    · exact Or.inr (h ▸ List.mem_cons_self c t)
    · rcases mem_of_mem_insertIdx h with h | h
      · exact Or.inl h
      · exact Or.inr (List.mem_cons_of_mem c h)

/-- Heap-level `combine` frame: the store keeps its length (the in-place
merge reuses the left object's cell) and the surviving ids all come from
the receiver. -/
theorem combineS_frame {s : Store} {self : HistRef} {s' : Store}
    {h' : HistRef} (hok : combineS s self = .ok (s', h')) :
    s'.length = s.length ∧ ∀ i ∈ h'.bucketIds, i ∈ self.bucketIds := by
  rw [combineS] at hok
  split at hok
  · injection hok with hok
    rw [Prod.mk.injEq] at hok
    refine ⟨by rw [← hok.1], ?_⟩
    intro i hi
    rw [← hok.2] at hi
    exact hi
  · cases h0 : pyGet self.bucketIds 0 with
    | error e => rw [h0, error_bind] at hok; exact absurd hok (by simp)
    | ok id0 =>
      rw [h0, ok_bind] at hok
      cases h1 : pyGet self.bucketIds 1 with
      | error e => rw [h1, error_bind] at hok; exact absurd hok (by simp)
      | ok id1 =>
        rw [h1, ok_bind] at hok
        cases h2 : storeGet s id0 with
        | error e => rw [h2, error_bind] at hok; exact absurd hok (by simp)
        | ok bucket_1 =>
          rw [h2, ok_bind] at hok
          cases h3 : storeGet s id1 with
          | error e => rw [h3, error_bind] at hok; exact absurd hok (by simp)
          | ok bucket_2 =>
            rw [h3, ok_bind] at hok
            dsimp only at hok
            cases h4 : pyGet self.bucketIds
                (selectLoopS s self.bucketIds
                  (bucket_2.centroid - bucket_1.centroid)
                  self.bucketIds.length 2 1 - 1) with
            | error e => rw [h4, error_bind] at hok; exact absurd hok (by simp)
            | ok lid =>
              rw [h4, ok_bind] at hok
              cases h5 : pyGet self.bucketIds
                  (selectLoopS s self.bucketIds
                    (bucket_2.centroid - bucket_1.centroid)
                    self.bucketIds.length 2 1) with
              | error e => rw [h5, error_bind] at hok; exact absurd hok (by simp)
              | ok rid =>
                rw [h5, ok_bind] at hok
                cases h6 : storeGet s lid with
                | error e => rw [h6, error_bind] at hok; exact absurd hok (by simp)
                | ok left =>
                  rw [h6, ok_bind] at hok
                  cases h7 : storeGet s rid with
                  | error e => rw [h7, error_bind] at hok; exact absurd hok (by simp)
                  | ok right =>
                    rw [h7, ok_bind] at hok
                    cases h8 : left.combine right with
                    | error e =>
                      rw [h8, error_bind] at hok; exact absurd hok (by simp)
                    | ok merged =>
                      rw [h8, ok_bind] at hok
                      injection hok with hok
                      rw [Prod.mk.injEq] at hok
                      refine ⟨by rw [← hok.1, List.length_set], ?_⟩
                      intro i hi
                      rw [← hok.2] at hi
                      exact (List.eraseIdx_sublist self.bucketIds _).subset hi

/-- Heap-level `push_bucket` frame: the pushed *id* is inserted (no
object is allocated, so the store keeps its length) and every id of the
result is an old id of the receiver or the pushed id itself. -/
theorem pushBucketS_frame {s : Store} {self : HistRef} {bid : ℕ}
    {s' : Store} {h' : HistRef}
    (hok : pushBucketS s self bid = .ok (s', h')) :
    s'.length = s.length ∧
      ∀ i ∈ h'.bucketIds, i ∈ self.bucketIds ∨ i = bid := by
  rw [pushBucketS] at hok
  cases h0 : storeGet s bid with
  | error e => rw [h0, error_bind] at hok; exact absurd hok (by simp)
  | ok bucket =>
    rw [h0, ok_bind] at hok
    dsimp only at hok
    split at hok
    · obtain ⟨hl, hids⟩ := combineS_frame hok
      refine ⟨hl, ?_⟩
      intro i hi
      rcases mem_of_mem_insertIdx (hids i hi) with h | h
      · exact Or.inr h
      · exact Or.inl h
    · injection hok with hok
      rw [Prod.mk.injEq] at hok
      refine ⟨by rw [← hok.1], ?_⟩
      intro i hi
      rw [← hok.2] at hi
      rcases mem_of_mem_insertIdx hi with h | h
      · exact Or.inr h
      · exact Or.inl h

/-- C2 (counterexample): in the heap semantics, merging B (two buckets at
centroids 1 and 2, objects at store cells 1 and 2) into A (one bucket at
centroid 10, `max_buckets = 2`) rewrites store cell 1 to `(11/2, 2)` and
cell 2 to `(13/3, 3)`: B's bucket objects — still addressed by B's
untouched id list `[1, 2]` — no longer hold their pre-merge centroids and
counts, refuting "merge leaves B unmodified". -/
theorem C2_merge_mutates_counterexample :
    mergeS [⟨10, 1⟩, ⟨1, 1⟩, ⟨2, 1⟩]
        ⟨2, [0], [10], QI.fin 10, QI.fin 10, 1⟩
        ⟨5, [1, 2], [1, 2], QI.fin 1, QI.fin 2, 2⟩
      = .ok ([⟨10, 1⟩, ⟨11/2, 2⟩, ⟨13/3, 3⟩],
             ⟨2, [2], [13/3], QI.fin 10, QI.fin 10, 3⟩) ∧
    storeGet [⟨10, 1⟩, ⟨1, 1⟩, ⟨2, 1⟩] 1 = .ok ⟨1, 1⟩ ∧
    storeGet [⟨10, 1⟩, ⟨11/2, 2⟩, ⟨13/3, 3⟩] 1 = .ok ⟨11/2, 2⟩ ∧
    (⟨11/2, 2⟩ : HistogramBucket) ≠ ⟨1, 1⟩ := by
  decide

/-- C2 (amended): `merge` transfers B's bucket objects by reference, not
by copy — it allocates nothing (the store length is unchanged, whereas a
deep copy would append fresh cells) and every bucket id of the merged
result is one of A's or B's original object ids; B's cells may therefore
be mutated in place by the subsequent reductions. -/
theorem C2_merge_aliasing_amended (s : Store) (A B : HistRef) (s' : Store)
    (A' : HistRef) (hok : mergeS s A B = .ok (s', A')) :
    s'.length = s.length ∧
      ∀ i ∈ A'.bucketIds, i ∈ A.bucketIds ∨ i ∈ B.bucketIds := by
  rw [mergeS] at hok
  have := foldlM_except_inv_mem
    (fun p : Store × HistRef => p.1.length = s.length ∧
      ∀ i ∈ p.2.bucketIds, i ∈ A.bucketIds ∨ i ∈ B.bucketIds)
    (fun p bid => do
      let (s1, h1) ← pushBucketS p.1 p.2 bid
      combineS s1 h1)
    B.bucketIds ?_ (s, A) (s', A') ⟨rfl, fun i hi => Or.inl hi⟩ hok
  · exact this
  · intro p bid p' hmem hp hstep
    dsimp only at hstep
    cases hpb : pushBucketS p.1 p.2 bid with
    | error e => rw [hpb, error_bind] at hstep; exact absurd hstep (by simp)
    | ok q =>
      obtain ⟨s1, h1⟩ := q
      rw [hpb, ok_bind] at hstep
      obtain ⟨hl1, hi1⟩ := pushBucketS_frame hpb
      obtain ⟨hl2, hi2⟩ := combineS_frame hstep
      refine ⟨by rw [hl2, hl1, hp.1], ?_⟩
      intro i hi
      rcases hi1 i (hi2 i hi) with h | h
      · exact hp.2 i h
      · exact Or.inr (h ▸ hmem)

/-- C2 (witness): the amended theorem applied to the counterexample
configuration — the store keeps its three cells and the merged
histogram's single id (2) is one of B's original ids. -/
theorem C2_merge_aliasing_witness :
    ([⟨10, 1⟩, ⟨11/2, 2⟩, ⟨13/3, 3⟩] : Store).length
        = ([⟨10, 1⟩, ⟨1, 1⟩, ⟨2, 1⟩] : Store).length ∧
      ∀ i ∈ (HistRef.mk 2 [2] [13/3] (QI.fin 10) (QI.fin 10) 3).bucketIds,
        i ∈ (HistRef.mk 2 [0] [10] (QI.fin 10) (QI.fin 10) 1).bucketIds ∨
          i ∈ (HistRef.mk 5 [1, 2] [1, 2] (QI.fin 1) (QI.fin 2) 2).bucketIds :=
  C2_merge_aliasing_amended [⟨10, 1⟩, ⟨1, 1⟩, ⟨2, 1⟩]
    ⟨2, [0], [10], QI.fin 10, QI.fin 10, 1⟩
    ⟨5, [1, 2], [1, 2], QI.fin 1, QI.fin 2, 2⟩
    [⟨10, 1⟩, ⟨11/2, 2⟩, ⟨13/3, 3⟩]
    ⟨2, [2], [13/3], QI.fin 10, QI.fin 10, 3⟩ (by decide)

/-- Heap-level analogue of `fold_push_bucket_ok`: pushing valid ids into a
histogram with enough spare capacity never triggers a reduction, leaves
the store untouched, and inserts only the given ids. -/
theorem fold_pushBucketS_ok (s : Store) :
    ∀ (l : List ℕ) (c : HistRef),
      c.centroids.length = c.bucketIds.length →
      (∀ bid ∈ l, bid < s.length) →
      ((c.bucketIds.length + l.length : ℕ) : ℤ) ≤ c.max_buckets →
      ∃ c', l.foldlM (fun p bid => pushBucketS p.1 p.2 bid) (s, c)
          = .ok (s, c') ∧
        c'.bucketIds.length = c.bucketIds.length + l.length ∧
        c'.centroids.length = c'.bucketIds.length ∧
        c'.max_buckets = c.max_buckets ∧
        ∀ i ∈ c'.bucketIds, i ∈ c.bucketIds ∨ i ∈ l
  | [], c, hwf, _, _ => ⟨c, rfl, by simp, hwf, rfl, fun i hi => Or.inl hi⟩
  | bid :: rest, c, hwf, hvalid, hle => by
    have hb : bid < s.length := hvalid bid (List.mem_cons_self _ _)
    have hget : storeGet s bid = .ok (s.get ⟨bid, hb⟩) := pyGet_of_lt hb
    have hple : bisect_left c.centroids (s.get ⟨bid, hb⟩).centroid
        ≤ c.bucketIds.length := by
      rw [← hwf]
      exact bisect_left_le_length _ _
    have hplec : bisect_left c.centroids (s.get ⟨bid, hb⟩).centroid
        ≤ c.centroids.length := bisect_left_le_length _ _
    have hpb : pushBucketS s c bid = .ok (s,
        ⟨c.max_buckets,
         c.bucketIds.insertIdx
           (bisect_left c.centroids (s.get ⟨bid, hb⟩).centroid) bid,
         c.centroids.insertIdx
           (bisect_left c.centroids (s.get ⟨bid, hb⟩).centroid)
           (s.get ⟨bid, hb⟩).centroid,
         c.min, c.max, c.count + (s.get ⟨bid, hb⟩).count⟩) := by
      rw [pushBucketS, hget, ok_bind]
      dsimp only
      rw [if_neg]
      show ¬ (((c.bucketIds.insertIdx
          (bisect_left c.centroids (s.get ⟨bid, hb⟩).centroid)
          bid).length : ℤ) > c.max_buckets)
      rw [List.length_insertIdx _ _ hple]
      simp at hle
      push_cast
      omega
    rw [List.foldlM, hpb]
    simp only [ok_bind]
    obtain ⟨c', hfold, hlen', hwf', hmax', hmem'⟩ := fold_pushBucketS_ok s
      rest
      ⟨c.max_buckets,
       c.bucketIds.insertIdx
         (bisect_left c.centroids (s.get ⟨bid, hb⟩).centroid) bid,
       c.centroids.insertIdx
         (bisect_left c.centroids (s.get ⟨bid, hb⟩).centroid)
         (s.get ⟨bid, hb⟩).centroid,
       c.min, c.max, c.count + (s.get ⟨bid, hb⟩).count⟩
      (by
        show (c.centroids.insertIdx _ _).length
          = (c.bucketIds.insertIdx _ _).length
        rw [List.length_insertIdx _ _ hple, List.length_insertIdx _ _ hplec,
          hwf])
      (fun b hbm => hvalid b (List.mem_cons_of_mem _ hbm))
      (by
        show ((((c.bucketIds.insertIdx _ _).length : ℕ)
          + rest.length : ℕ) : ℤ) ≤ c.max_buckets
        rw [List.length_insertIdx _ _ hple]
        simp at hle
        push_cast
        omega)
    refine ⟨c', hfold, ?_, hwf', hmax', ?_⟩
    · rw [hlen']
      show (c.bucketIds.insertIdx _ _).length + rest.length
        = c.bucketIds.length + (bid :: rest).length
      rw [List.length_insertIdx _ _ hple]
      simp
      omega
    · intro i hi
      rcases hmem' i hi with hin | hin
      · rcases mem_of_mem_insertIdx hin with h | h
        · exact Or.inr (h ▸ List.mem_cons_self _ _)
        · exact Or.inl h
      · exact Or.inr (List.mem_cons_of_mem _ hin)

/-- C7 (counterexample): cloning an *empty* histogram does not succeed —
the fresh clone is constructed with `max_buckets = len(buckets) = 0`,
which the constructor rejects with `ValueError`. -/
theorem C7_empty_clone_counterexample :
    StreamingHistogram.clone ⟨5, [], [], QI.pinf, ⊥, 0⟩
      = .error PyErr.valueError := by
  decide

/-- C7 (amended): cloning an empty histogram always fails with
`ValueError`; cloning a non-empty histogram (in the heap semantics, with
its object ids in range) succeeds but is a *shallow* copy: no new bucket
object is allocated (the store is returned unchanged) and every bucket id
of the clone is one of the receiver's own object ids, so the clone shares
its mutable bucket state with the receiver. -/
theorem C7_clone_amended :
    (∀ self : StreamingHistogram, self.buckets = [] →
      self.clone = .error PyErr.valueError) ∧
    ∀ (s : Store) (h : HistRef), h.bucketIds ≠ [] →
      (∀ bid ∈ h.bucketIds, bid < s.length) →
      ∃ c, cloneS s h = .ok (s, c) ∧
        c.max_buckets = (h.bucketIds.length : ℤ) ∧
        c.bucketIds.length = h.bucketIds.length ∧
        ∀ i ∈ c.bucketIds, i ∈ h.bucketIds := by
  constructor
  · intro self hempty
    rw [StreamingHistogram.clone, hempty]
    rfl
  · intro s h hne hvalid
    have hpos : 0 < h.bucketIds.length := List.length_pos.mpr hne
    rw [cloneS]
    have hinit : initRef (h.bucketIds.length : ℤ)
        = .ok ⟨(h.bucketIds.length : ℤ), [], [], QI.pinf, ⊥, 0⟩ := by
      rw [initRef, if_neg]
      omega
    rw [hinit, ok_bind]
    obtain ⟨c', hfold, hlen', hwf', hmax', hmem'⟩ := fold_pushBucketS_ok s
      h.bucketIds ⟨(h.bucketIds.length : ℤ), [], [], QI.pinf, ⊥, 0⟩ rfl
      hvalid (by simp)
    refine ⟨c', hfold, hmax', by simpa using hlen', ?_⟩
    intro i hi
    rcases hmem' i hi with hin | hin
    · exact absurd hin (List.not_mem_nil i)
    · exact hin

/-- C7 (witness): the amended theorem's success clause at a concrete
two-bucket heap configuration. -/
theorem C7_clone_witness :
    ∃ c, cloneS [⟨1, 1⟩, ⟨2, 1⟩] ⟨5, [0, 1], [1, 2], QI.fin 1, QI.fin 2, 2⟩
        = .ok ([⟨1, 1⟩, ⟨2, 1⟩], c) ∧
      c.max_buckets = (([0, 1] : List ℕ).length : ℤ) ∧
      c.bucketIds.length = ([0, 1] : List ℕ).length ∧
      ∀ i ∈ c.bucketIds, i ∈ ([0, 1] : List ℕ) :=
  C7_clone_amended.2 [⟨1, 1⟩, ⟨2, 1⟩]
    ⟨5, [0, 1], [1, 2], QI.fin 1, QI.fin 2, 2⟩ (by decide) (by decide)

/-- In-range `storeGet` succeeds. -/
theorem storeGet_of_lt {t : Store} {i : ℕ} (h : i < t.length) :
    storeGet t i = .ok (t.get ⟨i, h⟩) := pyGet_of_lt h

/-- `getD` after `set` at a different position. -/
theorem getD_set_ne {α : Type} (l : List α) (j i : ℕ) (v d : α)
    (h : i ≠ j) : (l.set j v).getD i d = l.getD i d := by
  rw [List.getD_eq_getElem?_getD, List.getD_eq_getElem?_getD,
    List.getElem?_set_ne (Ne.symm h)]

/-- Reading a list of centroids through the store succeeds on in-range
ids. -/
theorem mapM_centroid_ok (t : Store) :
    ∀ ids : List ℕ, (∀ bid ∈ ids, bid < t.length) →
      ∃ cs, ids.mapM (fun bid => do
          pure (← storeGet t bid).centroid) = .ok cs ∧
        cs.length = ids.length
  | [], _ => ⟨[], by rw [List.mapM_nil]; rfl, rfl⟩
  | bid :: rest, hv => by
    have hb : bid < t.length := hv bid (List.mem_cons_self _ _)
    obtain ⟨cs, hcs, hlen⟩ := mapM_centroid_ok t rest
      (fun b hbm => hv b (List.mem_cons_of_mem _ hbm))
    refine ⟨(t.get ⟨bid, hb⟩).centroid :: cs, ?_, by simp [hlen]⟩
    rw [List.mapM_cons, storeGet_of_lt hb, hcs]
    rfl

/-- The heap-level redistribution loop succeeds when the fresh target ids
are in range, and it writes only into the fresh segment: every store cell
of the original prefix keeps its value. -/
theorem reshapeLoopS_ok (s : Store) (newIds : List ℕ) (ranges : List QI)
    (N : ℕ) (hne : newIds ≠ [])
    (hid : ∀ tid ∈ newIds, s.length ≤ tid ∧ tid < N)
    (h1 : ∀ x : ℚ, 1 ≤ bisect_right ranges (QI.fin x))
    (h2 : ∀ x : ℚ, bisect_right ranges (QI.fin x) ≤ newIds.length + 1) :
    ∀ (bids : List ℕ) (t : Store), t.length = N →
      (∀ b ∈ bids, b < s.length) →
      (∀ i, i < s.length → t.getD i ⟨0, 0⟩ = s.getD i ⟨0, 0⟩) →
      ∃ t', reshapeLoopS newIds ranges t bids = .ok t' ∧
        t'.length = N ∧
        ∀ i, i < s.length → t'.getD i ⟨0, 0⟩ = s.getD i ⟨0, 0⟩
  | [], t, htl, _, hpre => ⟨t, rfl, htl, hpre⟩
  | bid :: rest, t, htl, hv, hpre => by
    have hlenpos : 0 < newIds.length := List.length_pos.mpr hne
    have hb : bid < s.length := hv bid (List.mem_cons_self _ _)
    have hsN : s.length ≤ N := by
      obtain ⟨tid, htid⟩ := List.exists_mem_of_ne_nil newIds hne
      obtain ⟨hge, hlt⟩ := hid tid htid
      omega
    have hbt : bid < t.length := by omega
    rw [reshapeLoopS]
    rw [storeGet_of_lt hbt]
    simp only [ok_bind]
    by_cases h0 :
        bisect_right ranges (QI.fin (t.get ⟨bid, hbt⟩).centroid) - 1 = 0
    · rw [if_pos h0, pyGet_of_lt hlenpos]
      simp only [ok_bind]
      obtain ⟨htid0, htidN⟩ :=
        hid (newIds.get ⟨0, hlenpos⟩) (List.get_mem newIds 0 hlenpos)
      have htidt : newIds.get ⟨0, hlenpos⟩ < t.length := by omega
      rw [storeGet_of_lt htidt]
      simp only [ok_bind]
      obtain ⟨t', hout, hlen', hpre'⟩ := reshapeLoopS_ok s newIds ranges N
        hne hid h1 h2 rest
        (t.set (newIds.get ⟨0, hlenpos⟩)
          { t.get ⟨newIds.get ⟨0, hlenpos⟩, htidt⟩ with
            count := (t.get ⟨newIds.get ⟨0, hlenpos⟩, htidt⟩).count
              + (t.get ⟨bid, hbt⟩).count })
        (by rw [List.length_set]; exact htl)
        (fun x hx => hv x (List.mem_cons_of_mem _ hx))
        (fun i hi => by
          rw [getD_set_ne]
          · exact hpre i hi
          · omega)
      exact ⟨t', hout, hlen', hpre'⟩
    · by_cases hN :
          bisect_right ranges (QI.fin (t.get ⟨bid, hbt⟩).centroid) - 1
            = newIds.length
      · rw [if_neg h0, if_pos hN]
        have hlast : newIds.length - 1 < newIds.length := by omega
        rw [pyGet_of_lt hlast]
        simp only [ok_bind]
        obtain ⟨htid0, htidN⟩ :=
          hid (newIds.get ⟨newIds.length - 1, hlast⟩)
            (List.get_mem newIds _ hlast)
        have htidt : newIds.get ⟨newIds.length - 1, hlast⟩ < t.length := by
          omega
        rw [storeGet_of_lt htidt]
        simp only [ok_bind]
        obtain ⟨t', hout, hlen', hpre'⟩ := reshapeLoopS_ok s newIds ranges N
          hne hid h1 h2 rest
          (t.set (newIds.get ⟨newIds.length - 1, hlast⟩)
            { t.get ⟨newIds.get ⟨newIds.length - 1, hlast⟩, htidt⟩ with
              count :=
                (t.get ⟨newIds.get ⟨newIds.length - 1, hlast⟩, htidt⟩).count
                  + (t.get ⟨bid, hbt⟩).count })
          (by rw [List.length_set]; exact htl)
          (fun x hx => hv x (List.mem_cons_of_mem _ hx))
          (fun i hi => by
            rw [getD_set_ne]
            · exact hpre i hi
            · omega)
        exact ⟨t', hout, hlen', hpre'⟩
      · rw [if_neg h0, if_neg hN]
        have hidx :
            bisect_right ranges (QI.fin (t.get ⟨bid, hbt⟩).centroid) - 1
              < newIds.length := by
          have := h2 (t.get ⟨bid, hbt⟩).centroid
          omega
        have hprev :
            bisect_right ranges (QI.fin (t.get ⟨bid, hbt⟩).centroid) - 1 - 1
              < newIds.length := by omega
        rw [pyGet_of_lt hprev]
        simp only [ok_bind]
        rw [pyGet_of_lt hidx]
        simp only [ok_bind]
        obtain ⟨hpid0, hpidN⟩ := hid (newIds.get ⟨_, hprev⟩)
          (List.get_mem newIds _ hprev)
        obtain ⟨hnid0, hnidN⟩ := hid (newIds.get ⟨_, hidx⟩)
          (List.get_mem newIds _ hidx)
        have hpidt : newIds.get
            ⟨bisect_right ranges (QI.fin (t.get ⟨bid, hbt⟩).centroid)
              - 1 - 1, hprev⟩ < t.length := by omega
        have hnidt : newIds.get
            ⟨bisect_right ranges (QI.fin (t.get ⟨bid, hbt⟩).centroid)
              - 1, hidx⟩ < t.length := by omega
        rw [storeGet_of_lt hpidt]
        simp only [ok_bind]
        rw [storeGet_of_lt hnidt]
        simp only [ok_bind]
        by_cases habs : |(t.get ⟨bid, hbt⟩).centroid -
            (t.get ⟨newIds.get
              ⟨bisect_right ranges (QI.fin (t.get ⟨bid, hbt⟩).centroid)
                - 1 - 1, hprev⟩, hpidt⟩).centroid| <
            |(t.get ⟨newIds.get
              ⟨bisect_right ranges (QI.fin (t.get ⟨bid, hbt⟩).centroid)
                - 1, hidx⟩, hnidt⟩).centroid -
              (t.get ⟨bid, hbt⟩).centroid|
        · rw [if_pos habs]
          obtain ⟨t', hout, hlen', hpre'⟩ := reshapeLoopS_ok s newIds
            ranges N hne hid h1 h2 rest
            (t.set (newIds.get
              ⟨bisect_right ranges (QI.fin (t.get ⟨bid, hbt⟩).centroid)
                - 1 - 1, hprev⟩)
              { t.get ⟨newIds.get
                  ⟨bisect_right ranges
                    (QI.fin (t.get ⟨bid, hbt⟩).centroid) - 1 - 1,
                    hprev⟩, hpidt⟩ with
                count := (t.get ⟨newIds.get
                  ⟨bisect_right ranges
                    (QI.fin (t.get ⟨bid, hbt⟩).centroid) - 1 - 1,
                    hprev⟩, hpidt⟩).count + (t.get ⟨bid, hbt⟩).count })
            (by rw [List.length_set]; exact htl)
            (fun x hx => hv x (List.mem_cons_of_mem _ hx))
            (fun i hi => by
              rw [getD_set_ne]
              · exact hpre i hi
              · omega)
          exact ⟨t', hout, hlen', hpre'⟩
        · rw [if_neg habs]
          obtain ⟨t', hout, hlen', hpre'⟩ := reshapeLoopS_ok s newIds
            ranges N hne hid h1 h2 rest
            (t.set (newIds.get
              ⟨bisect_right ranges (QI.fin (t.get ⟨bid, hbt⟩).centroid)
                - 1, hidx⟩)
              { t.get ⟨newIds.get
                  ⟨bisect_right ranges
                    (QI.fin (t.get ⟨bid, hbt⟩).centroid) - 1,
                    hidx⟩, hnidt⟩ with
                count := (t.get ⟨newIds.get
                  ⟨bisect_right ranges
                    (QI.fin (t.get ⟨bid, hbt⟩).centroid) - 1,
                    hidx⟩, hnidt⟩).count + (t.get ⟨bid, hbt⟩).count })
            (by rw [List.length_set]; exact htl)
            (fun x hx => hv x (List.mem_cons_of_mem _ hx))
            (fun i hi => by
              rw [getD_set_ne]
              · exact hpre i hi
              · omega)
          exact ⟨t', hout, hlen', hpre'⟩

/-- C8: `reshape` replaces only the receiver's bucket list and centroid
cache.  In the heap semantics (valid object ids, non-empty reference) the
call succeeds, the receiver's `_count`, `_min`, `_max` and `max_buckets`
keep their pre-call values, and every pre-existing store cell — in
particular every bucket object of the reference histogram — is unchanged:
the fresh buckets are new allocations, so the reference is read-only
during reshape. -/
theorem C8_reshape_frame (s : Store) (self input_histogram : HistRef)
    (hne : input_histogram.bucketIds ≠ [])
    (hvin : ∀ bid ∈ input_histogram.bucketIds, bid < s.length)
    (hvself : ∀ bid ∈ self.bucketIds, bid < s.length) :
    ∃ (s' : Store) (self' : HistRef),
      reshapeS s self input_histogram = .ok (s', self') ∧
      (∀ i, i < s.length → s'.getD i ⟨0, 0⟩ = s.getD i ⟨0, 0⟩) ∧
      self'.count = self.count ∧ self'.min = self.min ∧
      self'.max = self.max ∧ self'.max_buckets = self.max_buckets := by
  rw [reshapeS]
  obtain ⟨cs, hcs, hcslen⟩ := mapM_centroid_ok s input_histogram.bucketIds
    hvin
  rw [hcs]
  simp only [ok_bind]
  have hcspos : 0 < cs.length := by
    rw [hcslen]
    exact List.length_pos.mpr hne
  have hnewlen : ((List.range cs.length).map
      (fun i => s.length + i)).length = cs.length := by simp
  have hnewne : (List.range cs.length).map (fun i => s.length + i) ≠ [] := by
    rw [← List.length_pos, hnewlen]
    exact hcspos
  have hidfact : ∀ tid ∈ (List.range cs.length).map
      (fun i => s.length + i),
      s.length ≤ tid ∧ tid < s.length + cs.length := by
    intro tid htid
    obtain ⟨i, hi, rfl⟩ := List.mem_map.mp htid
    rw [List.mem_range] at hi
    omega
  obtain ⟨s2, hout, hlen2, hpre2⟩ := reshapeLoopS_ok s
    ((List.range cs.length).map (fun i => s.length + i))
    (⊥ :: (cs.map QI.fin ++ [QI.pinf]))
    (s.length + cs.length) hnewne hidfact
    (fun x => bisect_right_ranges_ge (cs.map QI.fin) x)
    (fun x => by
      have := bisect_right_ranges_le (cs.map QI.fin) x
      rw [List.length_map] at this
      rw [hnewlen]
      exact this)
    self.bucketIds
    (s ++ cs.map (fun c => (⟨c, 0⟩ : HistogramBucket)))
    (by simp)
    hvself
    (fun i hi => List.getD_append _ _ _ i hi)
  rw [hout]
  simp only [ok_bind]
  obtain ⟨fc, hfc, hfclen⟩ := mapM_centroid_ok s2
    ((List.range cs.length).map (fun i => s.length + i))
    (fun tid htid => by
      rw [hlen2]
      exact (hidfact tid htid).2)
  rw [hfc]
  simp only [ok_bind]
  exact ⟨s2, _, rfl, hpre2, rfl, rfl, rfl, rfl⟩

/-- C8 (witness): the frame theorem at a concrete heap — receiver owning
cell 2, reference owning cells 0 and 1. -/
theorem C8_reshape_frame_witness :
    ∃ (s' : Store) (self' : HistRef),
      reshapeS [⟨1, 1⟩, ⟨2, 1⟩, ⟨10, 3⟩]
          ⟨5, [2], [10], QI.fin 10, QI.fin 10, 3⟩
          ⟨5, [0, 1], [1, 2], QI.fin 1, QI.fin 2, 2⟩
        = .ok (s', self') ∧
      (∀ i, i < ([⟨1, 1⟩, ⟨2, 1⟩, ⟨10, 3⟩] : Store).length →
        s'.getD i ⟨0, 0⟩ = ([⟨1, 1⟩, ⟨2, 1⟩, ⟨10, 3⟩] : Store).getD i ⟨0, 0⟩) ∧
      self'.count = (HistRef.mk 5 [2] [10] (QI.fin 10) (QI.fin 10) 3).count ∧
      self'.min = (HistRef.mk 5 [2] [10] (QI.fin 10) (QI.fin 10) 3).min ∧
      self'.max = (HistRef.mk 5 [2] [10] (QI.fin 10) (QI.fin 10) 3).max ∧
      self'.max_buckets
        = (HistRef.mk 5 [2] [10] (QI.fin 10) (QI.fin 10) 3).max_buckets :=
  C8_reshape_frame [⟨1, 1⟩, ⟨2, 1⟩, ⟨10, 3⟩]
    ⟨5, [2], [10], QI.fin 10, QI.fin 10, 3⟩
    ⟨5, [0, 1], [1, 2], QI.fin 1, QI.fin 2, 2⟩
    (by decide) (by decide) (by decide)
